import Mathlib

/-!
# Verification of the Namada proof-of-stake staking/slashing engine

Shallow embedding of the functions of `proof_of_stake/src/lib.rs` that the
claims concern, with proofs about them.

Conventions of the embedding:
* `token::Amount` (unsigned integer token units) is `Nat`; its
  `checked_sub(..).unwrap_or_default()` pattern is truncated subtraction.
* `token::Change` (signed) is `Int`.
* `Dec` (fixed-point decimal rates in [0,1]) is modelled as `ℚ`.
* `Epoch` is `Nat`.
* `BTreeMap` values iterated by the code are modelled as association lists;
  every query the embedded code performs on them (length, minimum /
  maximum key, filtering, point lookup) is order-insensitive, so a list
  standing for the map's entry multiset is a sound model.
* Storage reads are passed in as explicit function / list arguments.
* Rust code paths that `panic!` / `expect` are modelled by `Option`
  (`none` = panic).
-/

namespace NamadaPoS

/-- Modelled from the spec: `PosParams` (§3) — the fields used by the
embedded functions. `parameters.rs` is not part of the provided sources. -/
structure PosParams where
  pipeline_len : Nat
  unbonding_len : Nat
  cubic_slashing_window_length : Nat
  max_validator_slots : Nat
  validator_stake_threshold : Nat
deriving DecidableEq, Repr

/-- Modelled from the spec: `slash_processing_offset = U + W + 1` (§3). -/
def PosParams.slash_processing_epoch_offset (p : PosParams) : Nat :=
  p.unbonding_len + p.cubic_slashing_window_length + 1

/-- Modelled from the spec: `withdrawable_offset = P + U + W + 1` (§3). -/
def PosParams.withdrawable_epoch_offset (p : PosParams) : Nat :=
  p.pipeline_len + p.unbonding_len + p.cubic_slashing_window_length + 1

/-- Modelled from the spec: the cubic-rate window `[infraction - W,
infraction + W]` (§4.6.3); subtraction on epochs is truncated at zero. -/
def PosParams.cubic_slash_epoch_window (p : PosParams) (infraction : Nat) :
    Nat × Nat :=
  (infraction - p.cubic_slashing_window_length,
   infraction + p.cubic_slashing_window_length)

/-- Modelled from the spec: the start of a redelegation whose bonds end
(start contributing) at `end_epoch` is one pipeline length earlier (§4.5). -/
def PosParams.redelegation_start_epoch_from_end (p : PosParams)
    (end_epoch : Nat) : Nat :=
  end_epoch - p.pipeline_len

/-- Modelled from the spec: the redelegation slashing window
`[redelegation_start + 1, redelegation_end]` of §4.6.1. -/
def PosParams.in_redelegation_slashing_window (p : PosParams)
    (slash_epoch redel_start redel_end : Nat) : Bool :=
  decide (redel_start < slash_epoch && slash_epoch ≤ redel_end)

/-- Modelled from the spec: a recorded slash `(epoch, block_height, kind,
rate)` (§3); `kind` only selects a parameter-determined base rate and is
dropped, the base rate being passed explicitly where needed. -/
structure Slash where
  epoch : Nat
  blockHeight : Nat
  rate : ℚ
deriving DecidableEq, Repr

/-- `token::Amount::mul_ceil`: multiply an amount by a decimal rate,
rounding up. -/
def mulCeil (a : Nat) (r : ℚ) : Nat := (⌈(a : ℚ) * r⌉).toNat

/-- `BTreeMap::insert` on an association list: replace the binding of an
existing key, otherwise append. -/
def insertKV : List (Nat × Nat) → Nat → Nat → List (Nat × Nat)
  | [], k, v => [(k, v)]
  | (k0, v0) :: rest, k, v =>
    if k0 = k then (k, v) :: rest else (k0, v0) :: insertKV rest k v

/-- `fn compute_slashable_amount` (lib.rs:2168): subtract from `amount`
every already-computed slash whose epoch was processed (`epoch +
slash_processing_epoch_offset`) no later than this slash's epoch, then
multiply by this slash's rate, rounding up. -/
def compute_slashable_amount (params : PosParams) (slash : Slash)
    (amount : Nat) (computed_slashes : List (Nat × Nat)) : Nat :=
  let updated_amount :=
    (computed_slashes.filter
        (fun ea => ea.1 + params.slash_processing_epoch_offset ≤ slash.epoch)
      ).foldl (fun acc ea => acc - ea.2) amount
  mulCeil updated_amount slash.rate

/-- The loop of `fn apply_list_slashes` (lib.rs:2148), carrying the running
`final_amount` and the `computed_slashes` table. -/
def applyListSlashesGo (params : PosParams) (amount : Nat) :
    List Slash → Nat → List (Nat × Nat) → Nat
  | [], final_amount, _ => final_amount
  | slash :: rest, final_amount, computed_slashes =>
    let slashed_amount :=
      compute_slashable_amount params slash amount computed_slashes
    applyListSlashesGo params amount rest (final_amount - slashed_amount)
      (insertKV computed_slashes slash.epoch slashed_amount)

/-- `fn apply_list_slashes` (lib.rs:2148): how much remains from `amount`
after applying a list of slashes, non-compounding. -/
def apply_list_slashes (params : PosParams) (slashes : List Slash)
    (amount : Nat) : Nat :=
  applyListSlashesGo params amount slashes amount []

/-- The running amount of `applyListSlashesGo` never increases. -/
theorem applyListSlashesGo_le (params : PosParams) (amount : Nat) :
    ∀ (l : List Slash) (f : Nat) (c : List (Nat × Nat)),
      applyListSlashesGo params amount l f c ≤ f := by
  intro l
  induction l with
  | nil => intro f c; exact Nat.le_refl f
  | cons s rest ih =>
    intro f c
    calc applyListSlashesGo params amount rest
            (f - compute_slashable_amount params s amount c)
            (insertKV c s.epoch (compute_slashable_amount params s amount c))
        ≤ f - compute_slashable_amount params s amount c := ih _ _
      _ ≤ f := Nat.sub_le _ _

/-- `apply_list_slashes` never returns more than the input amount. -/
theorem apply_list_slashes_le (params : PosParams) (slashes : List Slash)
    (amount : Nat) : apply_list_slashes params slashes amount ≤ amount :=
  applyListSlashesGo_le params amount slashes amount []

/-- The processing offset is at least one epoch, so no epoch is processed
at or before itself. -/
theorem not_processed_before_self (params : PosParams) (e : Nat) :
    ¬e + params.slash_processing_epoch_offset ≤ e := by
  simp [PosParams.slash_processing_epoch_offset]

/-- C1. Non-compounding overlapping slashes: two slashes recorded at the
same infraction epoch are each computed on the original amount, because the
first is not yet processed (`epoch + slash_processing_epoch_offset`) by the
time of the second; `apply_list_slashes` returns
`A - ceil(A*r1) - ceil(A*r2)` (truncated at zero). -/
theorem apply_list_slashes_same_epoch (params : PosParams)
    (amount e bh1 bh2 : Nat) (r1 r2 : ℚ) (h1 : 0 ≤ r1) (h2 : 0 ≤ r2)
    (hsum : r1 + r2 ≤ 1) :
    apply_list_slashes params [⟨e, bh1, r1⟩, ⟨e, bh2, r2⟩] amount =
      amount - mulCeil amount r1 - mulCeil amount r2 := by
  simp [apply_list_slashes, applyListSlashesGo, compute_slashable_amount,
    insertKV, List.filter, not_processed_before_self params e]

/-- Witness for C1: an amount of 100 under two same-epoch slashes of rates
0.3 and 0.4 leaves exactly 30 (not 42 as compounding would give). -/
theorem apply_list_slashes_same_epoch_witness :
    (0 : ℚ) ≤ 3 / 10 ∧ (0 : ℚ) ≤ 4 / 10 ∧ (3 / 10 : ℚ) + 4 / 10 ≤ 1 ∧
      apply_list_slashes ⟨2, 3, 1, 4, 10⟩
          [⟨5, 0, 3 / 10⟩, ⟨5, 0, 4 / 10⟩] 100 = 30 := by
  refine ⟨by norm_num, by norm_num, by norm_num, ?_⟩
  have h := apply_list_slashes_same_epoch ⟨2, 3, 1, 4, 10⟩ 100 5 0 0
    (3 / 10) (4 / 10) (by norm_num) (by norm_num) (by norm_num)
  rw [h]
  norm_num [mulCeil]
  rfl

/-- An element of `computed_amounts` in `fn get_slashed_amount`. -/
structure SlashedAmount where
  amount : Nat
  epoch : Nat
deriving DecidableEq, Repr

/-- The loop of `fn get_slashed_amount` (lib.rs:2553): for each slash (in
ascending infraction-epoch order of the `BTreeMap`), first settle into
`updated_amount` every previously computed slash already processed before
this infraction (removing it from `computed_amounts`), then push this
slash's amount computed from the settled `updated_amount`. -/
def getSlashedAmountGo (params : PosParams) :
    List (Nat × ℚ) → Nat → List SlashedAmount → Nat × List SlashedAmount
  | [], updated_amount, computed_amounts => (updated_amount, computed_amounts)
  | (infraction_epoch, slash_rate) :: rest, updated_amount,
      computed_amounts =>
    let settled := computed_amounts.filter (fun sa =>
      sa.epoch + params.slash_processing_epoch_offset ≤ infraction_epoch)
    let kept := computed_amounts.filter (fun sa =>
      ¬sa.epoch + params.slash_processing_epoch_offset ≤ infraction_epoch)
    let updated1 := settled.foldl (fun acc sa => acc - sa.amount)
      updated_amount
    getSlashedAmountGo params rest updated1
      (kept ++ [⟨mulCeil updated1 slash_rate, infraction_epoch⟩])

/-- `fn get_slashed_amount` (lib.rs:2553): token amount remaining after a
set of slashes (infraction epoch → effective rate), assumed committed while
`amount` was contributing to voting power. -/
def get_slashed_amount (params : PosParams) (amount : Nat)
    (slashes : List (Nat × ℚ)) : Nat :=
  let (updated_amount, computed_amounts) :=
    getSlashedAmountGo params slashes amount []
  updated_amount - (computed_amounts.map SlashedAmount.amount).sum

/-- Folding truncated subtraction never increases the accumulator. -/
theorem foldl_sub_le (l : List SlashedAmount) :
    ∀ u : Nat, l.foldl (fun acc sa => acc - sa.amount) u ≤ u := by
  induction l with
  | nil => intro u; exact Nat.le_refl u
  | cons sa rest ih =>
    intro u
    exact Nat.le_trans (ih (u - sa.amount)) (Nat.sub_le u sa.amount)

/-- The running `updated_amount` of `getSlashedAmountGo` never increases. -/
theorem getSlashedAmountGo_fst_le (params : PosParams) :
    ∀ (l : List (Nat × ℚ)) (u : Nat) (c : List SlashedAmount),
      (getSlashedAmountGo params l u c).1 ≤ u := by
  intro l
  induction l with
  | nil => intro u c; exact Nat.le_refl u
  | cons p rest ih =>
    intro u c
    exact Nat.le_trans (ih _ _) (foldl_sub_le _ u)

/-- `get_slashed_amount` never returns more than the input amount. -/
theorem get_slashed_amount_le (params : PosParams) (amount : Nat)
    (slashes : List (Nat × ℚ)) :
    get_slashed_amount params amount slashes ≤ amount := by
  unfold get_slashed_amount
  exact Nat.le_trans (Nat.sub_le _ _)
    (getSlashedAmountGo_fst_le params slashes amount [])

/-- Insertion step of the by-epoch sort. -/
def insertSlashByEpoch (s : Slash) : List Slash → List Slash
  | [] => [s]
  | t :: rest =>
    if s.epoch ≤ t.epoch then s :: t :: rest else t :: insertSlashByEpoch s rest

/-- `merged.sort_by(|s1, s2| s1.epoch.partial_cmp(&s2.epoch))`
(lib.rs:2132): sort a slash list by infraction epoch. -/
def sortSlashesByEpoch : List Slash → List Slash
  | [] => []
  | s :: rest => insertSlashByEpoch s (sortSlashesByEpoch rest)

/-- `struct FoldRedelegatedBondsResult`. -/
structure FoldRedelegatedBondsResult where
  total_redelegated : Nat
  total_after_slashing : Nat
deriving DecidableEq, Repr

/-- `RedelegatedTokens` read eagerly: source validator → (source bond start
epoch → amount). -/
abbrev RedelegatedTokensMap := List (String × List (Nat × Nat))

/-- Total amount in a map's range. -/
def sumAmounts (l : List (Nat × Nat)) : Nat := (l.map Prod.snd).sum

/-- Total redelegated amount of a `RedelegatedTokensMap`. -/
def sumRedelegated (ru : RedelegatedTokensMap) : Nat :=
  (ru.map (fun svb => sumAmounts svb.2)).sum

/-- Inner loop of `fn fold_and_slash_redelegated_bonds` over one source
validator's bond map. -/
def foldSlashRedelInner (params : PosParams) (src_slashes : List Slash)
    (start_epoch : Nat) (list_slashes : List Slash)
    (slash_epoch_filter : Nat → Bool) :
    List (Nat × Nat) → FoldRedelegatedBondsResult →
      FoldRedelegatedBondsResult
  | [], result => result
  | (bond_start, change) :: rest, result =>
    let merged := sortSlashesByEpoch
      ((src_slashes.filter (fun slash =>
          params.in_redelegation_slashing_window slash.epoch
              (params.redelegation_start_epoch_from_end start_epoch)
              start_epoch
            && decide (bond_start ≤ slash.epoch)
            && slash_epoch_filter slash.epoch)) ++ list_slashes)
    foldSlashRedelInner params src_slashes start_epoch list_slashes
      slash_epoch_filter rest
      ⟨result.total_redelegated + change,
       result.total_after_slashing + apply_list_slashes params merged change⟩

/-- `fn fold_and_slash_redelegated_bonds` (lib.rs:2092): for each
redelegated (source validator, bond start, amount), merge the source
validator's slashes inside the redelegation slashing window (and at or
after the bond start, passing `slash_epoch_filter`) with `list_slashes`,
sort by epoch, and accumulate the amount and its slashed remainder.
`src_validator_slashes` stands for the `validator_slashes_handle` storage
reads. -/
def fold_and_slash_redelegated_bonds (params : PosParams)
    (src_validator_slashes : String → List Slash)
    (redelegated_unbonds : RedelegatedTokensMap) (start_epoch : Nat)
    (list_slashes : List Slash) (slash_epoch_filter : Nat → Bool) :
    FoldRedelegatedBondsResult :=
  redelegated_unbonds.foldl
    (fun result svb =>
      foldSlashRedelInner params (src_validator_slashes svb.1) start_epoch
        list_slashes slash_epoch_filter svb.2 result)
    ⟨0, 0⟩

/-- One inner fold step: the slashed total tracks the redelegated total. -/
theorem foldSlashRedelInner_le (params : PosParams)
    (src_slashes : List Slash) (start_epoch : Nat)
    (list_slashes : List Slash) (f : Nat → Bool) :
    ∀ (l : List (Nat × Nat)) (acc : FoldRedelegatedBondsResult),
      acc.total_after_slashing ≤ acc.total_redelegated →
      (foldSlashRedelInner params src_slashes start_epoch list_slashes f l
          acc).total_after_slashing ≤
        (foldSlashRedelInner params src_slashes start_epoch list_slashes f l
          acc).total_redelegated := by
  intro l
  induction l with
  | nil => intro acc h; exact h
  | cons bc rest ih =>
    intro acc h
    exact ih _ (Nat.add_le_add h (apply_list_slashes_le params _ bc.2))

/-- The inner fold adds exactly the map's total to `total_redelegated`. -/
theorem foldSlashRedelInner_total (params : PosParams)
    (src_slashes : List Slash) (start_epoch : Nat)
    (list_slashes : List Slash) (f : Nat → Bool) :
    ∀ (l : List (Nat × Nat)) (acc : FoldRedelegatedBondsResult),
      (foldSlashRedelInner params src_slashes start_epoch list_slashes f l
          acc).total_redelegated = acc.total_redelegated + sumAmounts l := by
  intro l
  induction l with
  | nil => intro acc; simp [foldSlashRedelInner, sumAmounts]
  | cons bc rest ih =>
    intro acc
    simp only [foldSlashRedelInner, ih, sumAmounts, List.map_cons,
      List.sum_cons]
    omega

/-- `fold_and_slash_redelegated_bonds` slashes at most the redelegated
total, and reports exactly the redelegated total. -/
theorem fold_and_slash_redelegated_bonds_le (params : PosParams)
    (svs : String → List Slash) (ru : RedelegatedTokensMap)
    (start_epoch : Nat) (list_slashes : List Slash) (f : Nat → Bool) :
    (fold_and_slash_redelegated_bonds params svs ru start_epoch list_slashes
        f).total_after_slashing ≤
      (fold_and_slash_redelegated_bonds params svs ru start_epoch
        list_slashes f).total_redelegated ∧
    (fold_and_slash_redelegated_bonds params svs ru start_epoch list_slashes
        f).total_redelegated = sumRedelegated ru := by
  unfold fold_and_slash_redelegated_bonds
  suffices h : ∀ (l : RedelegatedTokensMap)
      (acc : FoldRedelegatedBondsResult),
      acc.total_after_slashing ≤ acc.total_redelegated →
      (l.foldl (fun result svb =>
          foldSlashRedelInner params (svs svb.1) start_epoch list_slashes f
            svb.2 result) acc).total_after_slashing ≤
        (l.foldl (fun result svb =>
          foldSlashRedelInner params (svs svb.1) start_epoch list_slashes f
            svb.2 result) acc).total_redelegated ∧
      (l.foldl (fun result svb =>
          foldSlashRedelInner params (svs svb.1) start_epoch list_slashes f
            svb.2 result) acc).total_redelegated =
        acc.total_redelegated + sumRedelegated l by
    have := h ru ⟨0, 0⟩ (Nat.le_refl 0)
    simpa using this
  intro l
  induction l with
  | nil => intro acc h; exact ⟨h, by simp [sumRedelegated]⟩
  | cons svb rest ih =>
    intro acc h
    obtain ⟨h1, h2⟩ := ih
      (foldSlashRedelInner params (svs svb.1) start_epoch list_slashes f
        svb.2 acc)
      (foldSlashRedelInner_le params (svs svb.1) start_epoch list_slashes f
        svb.2 acc h)
    simp only [List.foldl_cons]
    refine ⟨h1, ?_⟩
    rw [h2, foldSlashRedelInner_total]
    simp [sumRedelegated]
    omega

/-- `struct ResultSlashing` (lib.rs:1712): unbonded amount after slashing,
in total and per bond start epoch. -/
structure ResultSlashing where
  sum : Nat
  epoch_map : List (Nat × Nat)
deriving DecidableEq, Repr

/-- Association-list lookup, standing for `BTreeMap::get`. -/
def lookupKV (l : List (Nat × RedelegatedTokensMap)) (k : Nat) :
    Option RedelegatedTokensMap :=
  (l.find? (fun e => e.1 == k)).map Prod.snd

/-- Loop body of `fn compute_amount_after_slashing_unbond` (lib.rs:2600)
over one `(start_epoch, amount)` unbond entry. -/
def computeAASUnbondStep (params : PosParams)
    (src_validator_slashes : String → List Slash)
    (redelegated_unbonds : List (Nat × RedelegatedTokensMap))
    (slashes : List Slash) (start_epoch amount : Nat) : Nat :=
  let list_slashes := slashes.filter (fun slash =>
    decide (start_epoch ≤ slash.epoch))
  let result_fold := match lookupKV redelegated_unbonds start_epoch with
    | some ru =>
      fold_and_slash_redelegated_bonds params src_validator_slashes ru
        start_epoch list_slashes (fun _ => true)
    | none => ⟨0, 0⟩
  let total_not_redelegated := amount - result_fold.total_redelegated
  let after_not_redelegated :=
    apply_list_slashes params list_slashes total_not_redelegated
  after_not_redelegated + result_fold.total_after_slashing

/-- The accumulation loop of `fn compute_amount_after_slashing_unbond`. -/
def computeAASUnbondGo (params : PosParams)
    (src_validator_slashes : String → List Slash)
    (redelegated_unbonds : List (Nat × RedelegatedTokensMap))
    (slashes : List Slash) :
    List (Nat × Nat) → ResultSlashing → ResultSlashing
  | [], result => result
  | (start_epoch, amount) :: rest, result =>
    let amount_after_slashing := computeAASUnbondStep params
      src_validator_slashes redelegated_unbonds slashes start_epoch amount
    computeAASUnbondGo params src_validator_slashes redelegated_unbonds
      slashes rest
      ⟨result.sum + amount_after_slashing,
       insertKV result.epoch_map start_epoch amount_after_slashing⟩

/-- `fn compute_amount_after_slashing_unbond` (lib.rs:2600): apply to every
unbond tranche the validator's slashes at or after its bond start epoch,
treating its redelegated part through
`fold_and_slash_redelegated_bonds`. -/
def compute_amount_after_slashing_unbond (params : PosParams)
    (src_validator_slashes : String → List Slash)
    (unbonds : List (Nat × Nat))
    (redelegated_unbonds : List (Nat × RedelegatedTokensMap))
    (slashes : List Slash) : ResultSlashing :=
  computeAASUnbondGo params src_validator_slashes redelegated_unbonds
    slashes unbonds ⟨0, []⟩

/-- The redelegated total recorded for an unbond tranche, zero when the
tranche has no redelegated part. -/
def redelegatedTotalAt (redelegated_unbonds : List (Nat × RedelegatedTokensMap))
    (start_epoch : Nat) : Nat :=
  match lookupKV redelegated_unbonds start_epoch with
  | some ru => sumRedelegated ru
  | none => 0

/-- Each tranche's post-slashing amount is at most its pre-slashing amount,
provided its redelegated part does not exceed it (the redelegation
mirroring invariant). -/
theorem computeAASUnbondStep_le (params : PosParams)
    (svs : String → List Slash)
    (ru : List (Nat × RedelegatedTokensMap)) (slashes : List Slash)
    (start_epoch amount : Nat)
    (hmirror : redelegatedTotalAt ru start_epoch ≤ amount) :
    computeAASUnbondStep params svs ru slashes start_epoch amount ≤
      amount := by
  unfold computeAASUnbondStep
  unfold redelegatedTotalAt at hmirror
  cases hfind : lookupKV ru start_epoch with
  | none =>
    simp only [hfind]
    have := apply_list_slashes_le params
      (slashes.filter (fun slash => decide (start_epoch ≤ slash.epoch)))
      (amount - (0 : Nat))
    omega
  | some rum =>
    simp only [hfind] at hmirror ⊢
    obtain ⟨hle, htot⟩ := fold_and_slash_redelegated_bonds_le params svs rum
      start_epoch
      (slashes.filter (fun slash => decide (start_epoch ≤ slash.epoch)))
      (fun _ => true)
    have happ := apply_list_slashes_le params
      (slashes.filter (fun slash => decide (start_epoch ≤ slash.epoch)))
      (amount -
        (fold_and_slash_redelegated_bonds params svs rum start_epoch
          (slashes.filter (fun slash => decide (start_epoch ≤ slash.epoch)))
          (fun _ => true)).total_redelegated)
    omega

/-- The accumulated sum is bounded by the accumulator plus the total of the
remaining tranches. -/
theorem computeAASUnbondGo_le (params : PosParams)
    (svs : String → List Slash)
    (ru : List (Nat × RedelegatedTokensMap)) (slashes : List Slash) :
    ∀ (l : List (Nat × Nat)) (acc : ResultSlashing),
      (∀ ea ∈ l, redelegatedTotalAt ru ea.1 ≤ ea.2) →
      (computeAASUnbondGo params svs ru slashes l acc).sum ≤
        acc.sum + sumAmounts l := by
  intro l
  induction l with
  | nil => intro acc _; simp [computeAASUnbondGo, sumAmounts]
  | cons ea rest ih =>
    intro acc hmirror
    obtain ⟨e, a⟩ := ea
    have hstep := computeAASUnbondStep_le params svs ru slashes e a
      (hmirror (e, a) (List.mem_cons_self _ _))
    have hrest := ih
      ⟨acc.sum + computeAASUnbondStep params svs ru slashes e a,
       insertKV acc.epoch_map e
         (computeAASUnbondStep params svs ru slashes e a)⟩
      (fun x hx => hmirror x (List.mem_cons_of_mem _ hx))
    simp only [computeAASUnbondGo] at hrest ⊢
    simp only [sumAmounts, List.map_cons, List.sum_cons] at hrest ⊢
    omega

/-- C2. No over-slash: `apply_list_slashes` and `get_slashed_amount` never
return more than the input amount, and the `result_slashing.sum` computed
by `compute_amount_after_slashing_unbond` for the unbonded tranches is at
most their total requested amount (given the redelegation mirroring
invariant that a tranche's redelegated part is at most the tranche). -/
theorem no_over_slash (params : PosParams) (slashes : List Slash)
    (amount : Nat) (rate_map : List (Nat × ℚ))
    (svs : String → List Slash) (unbonds : List (Nat × Nat))
    (redelegated_unbonds : List (Nat × RedelegatedTokensMap))
    (hmirror : ∀ ea ∈ unbonds,
      redelegatedTotalAt redelegated_unbonds ea.1 ≤ ea.2) :
    apply_list_slashes params slashes amount ≤ amount ∧
    get_slashed_amount params amount rate_map ≤ amount ∧
    (compute_amount_after_slashing_unbond params svs unbonds
        redelegated_unbonds slashes).sum ≤ sumAmounts unbonds := by
  refine ⟨apply_list_slashes_le params slashes amount,
    get_slashed_amount_le params amount rate_map, ?_⟩
  have := computeAASUnbondGo_le params svs redelegated_unbonds slashes
    unbonds ⟨0, []⟩ hmirror
  simpa [compute_amount_after_slashing_unbond] using this

/-- Witness for C2: one unbonded tranche of 100 started at epoch 0, with a
redelegated part of 40 from source validator `"s"`, under a slash of rate
one half at epoch 3; the slashed sum (50) is at most the requested 100. -/
theorem no_over_slash_witness :
    (∀ ea ∈ [((0 : Nat), (100 : Nat))],
      redelegatedTotalAt [(0, [("s", [(0, 40)])])] ea.1 ≤ ea.2) ∧
    apply_list_slashes ⟨2, 3, 1, 4, 10⟩ [⟨3, 0, 1 / 2⟩] 100 ≤ 100 ∧
    get_slashed_amount ⟨2, 3, 1, 4, 10⟩ 100 [(3, 1 / 2)] ≤ 100 ∧
    (compute_amount_after_slashing_unbond ⟨2, 3, 1, 4, 10⟩
        (fun _ => []) [(0, 100)] [(0, [("s", [(0, 40)])])]
        [⟨3, 0, 1 / 2⟩]).sum ≤ sumAmounts [(0, 100)] := by
  refine ⟨?_, ?_⟩
  · intro ea hea
    simp only [List.mem_singleton] at hea
    subst hea
    simp [redelegatedTotalAt, lookupKV, sumRedelegated, sumAmounts]
  · exact no_over_slash ⟨2, 3, 1, 4, 10⟩ [⟨3, 0, 1 / 2⟩] 100 [(3, 1 / 2)]
      (fun _ => []) [(0, 100)] [(0, [("s", [(0, 40)])])]
      (by
        intro ea hea
        simp only [List.mem_singleton] at hea
        subst hea
        simp [redelegatedTotalAt, lookupKV, sumRedelegated, sumAmounts])

/-- The accumulation loop of `fn compute_amount_after_slashing_withdraw`
(lib.rs:2655) over `((start_epoch, withdraw_epoch), (amount,
redelegated_unbonds))` entries: apply the validator's slashes with
`start_epoch ≤ slash.epoch` and `slash.epoch < withdraw_epoch -
unbonding_len - cubic_slashing_window_length`, treating the redelegated
part through `fold_and_slash_redelegated_bonds`. -/
def computeAASWithdrawGo (params : PosParams)
    (src_validator_slashes : String → List Slash) (slashes : List Slash) :
    List ((Nat × Nat) × (Nat × RedelegatedTokensMap)) → ResultSlashing →
      ResultSlashing
  | [], result => result
  | ((start_epoch, withdraw_epoch), (amount, redelegated_unbonds)) :: rest,
      result =>
    let end_epoch := withdraw_epoch - params.unbonding_len -
      params.cubic_slashing_window_length
    let list_slashes := slashes.filter (fun slash =>
      decide (start_epoch ≤ slash.epoch) && decide (slash.epoch < end_epoch))
    let result_fold := fold_and_slash_redelegated_bonds params
      src_validator_slashes redelegated_unbonds start_epoch list_slashes
      (fun _ => true)
    let total_not_redelegated := amount - result_fold.total_redelegated
    let after_not_redelegated :=
      apply_list_slashes params list_slashes total_not_redelegated
    let amount_after_slashing :=
      after_not_redelegated + result_fold.total_after_slashing
    computeAASWithdrawGo params src_validator_slashes slashes rest
      ⟨result.sum + amount_after_slashing,
       insertKV result.epoch_map start_epoch amount_after_slashing⟩

/-- `fn compute_amount_after_slashing_withdraw` (lib.rs:2655). -/
def compute_amount_after_slashing_withdraw (params : PosParams)
    (src_validator_slashes : String → List Slash)
    (unbonds_and_redelegated_unbonds :
      List ((Nat × Nat) × (Nat × RedelegatedTokensMap)))
    (slashes : List Slash) : ResultSlashing :=
  computeAASWithdrawGo params src_validator_slashes slashes
    unbonds_and_redelegated_unbonds ⟨0, []⟩

/-- C8, counterexample. With `U = 2`, `W = 1`, a tranche with bond start 0
and withdraw epoch 10, the claim's inclusive slash window is `[0, 7]`; yet
a slash at exactly epoch `7 = 10 - U - W` with rate one half is *not*
applied by the code — the full 100 is kept, although applying the slash
(as the claim demands) would leave 50. -/
theorem withdraw_window_boundary_counterexample :
    (compute_amount_after_slashing_withdraw ⟨2, 2, 1, 4, 10⟩ (fun _ => [])
        [((0, 10), (100, []))] [⟨7, 0, 1 / 2⟩]).sum = 100 ∧
    apply_list_slashes ⟨2, 2, 1, 4, 10⟩ [⟨7, 0, 1 / 2⟩] 100 = 50 := by
  constructor
  · simp [compute_amount_after_slashing_withdraw, computeAASWithdrawGo,
      fold_and_slash_redelegated_bonds, apply_list_slashes,
      applyListSlashesGo, List.filter]
  · norm_num [apply_list_slashes, applyListSlashesGo,
      compute_slashable_amount, insertKV, List.filter, mulCeil]
    rfl

/-- C8, amended. The slash window of
`compute_amount_after_slashing_withdraw` is the half-open interval
`[start, withdraw - U - W)`: on a tranche with no redelegated part the
result is exactly `apply_list_slashes` of the slashes in that interval, and
a slash outside the interval (before `start` or at/after
`withdraw - U - W`) does not change the withdrawn amount. -/
theorem withdraw_window_half_open (params : PosParams)
    (svs : String → List Slash) (start_epoch withdraw_epoch amount : Nat)
    (slashes : List Slash) (sl : Slash)
    (houtside : sl.epoch < start_epoch ∨
      withdraw_epoch - params.unbonding_len -
        params.cubic_slashing_window_length ≤ sl.epoch) :
    (compute_amount_after_slashing_withdraw params svs
        [((start_epoch, withdraw_epoch), (amount, []))] slashes).sum =
      apply_list_slashes params
        (slashes.filter (fun slash =>
          decide (start_epoch ≤ slash.epoch) &&
          decide (slash.epoch < withdraw_epoch - params.unbonding_len -
            params.cubic_slashing_window_length))) amount ∧
    (compute_amount_after_slashing_withdraw params svs
        [((start_epoch, withdraw_epoch), (amount, []))] (sl :: slashes)).sum =
      (compute_amount_after_slashing_withdraw params svs
        [((start_epoch, withdraw_epoch), (amount, []))] slashes).sum := by
  have hnot : (decide (start_epoch ≤ sl.epoch) &&
      decide (sl.epoch < withdraw_epoch - params.unbonding_len -
        params.cubic_slashing_window_length)) = false := by
    simp only [Bool.and_eq_false_iff, decide_eq_false_iff_not, Nat.not_le,
      Nat.not_lt]
    omega
  constructor
  · simp [compute_amount_after_slashing_withdraw, computeAASWithdrawGo,
      fold_and_slash_redelegated_bonds]
  · simp [compute_amount_after_slashing_withdraw, computeAASWithdrawGo,
      fold_and_slash_redelegated_bonds, List.filter, hnot]

/-- Witness for the amended C8: with `U = 2`, `W = 1`, bond start 2,
withdraw epoch 10, adding a slash at epoch 1 (before the bond start, hence
outside the window) leaves the result unchanged, and on a slash at epoch 3
with rate one half inside the window the tranche of 100 yields exactly
`apply_list_slashes` of the filtered list, i.e. 50. -/
theorem withdraw_window_half_open_witness :
    ((1 : Nat) < 2 ∨ (10 : Nat) - 2 - 1 ≤ 1) ∧
    (compute_amount_after_slashing_withdraw ⟨2, 2, 1, 4, 10⟩ (fun _ => [])
        [((2, 10), (100, []))] [⟨3, 0, 1 / 2⟩]).sum =
      apply_list_slashes ⟨2, 2, 1, 4, 10⟩
        ((([⟨3, 0, 1 / 2⟩] : List Slash)).filter (fun slash =>
          decide ((2 : Nat) ≤ slash.epoch) &&
          decide (slash.epoch < 10 - (2 : Nat) - 1))) 100 ∧
    (compute_amount_after_slashing_withdraw ⟨2, 2, 1, 4, 10⟩ (fun _ => [])
        [((2, 10), (100, []))] (⟨1, 0, 1 / 2⟩ :: [⟨3, 0, 1 / 2⟩])).sum =
      (compute_amount_after_slashing_withdraw ⟨2, 2, 1, 4, 10⟩ (fun _ => [])
        [((2, 10), (100, []))] [⟨3, 0, 1 / 2⟩]).sum := by
  refine ⟨Or.inl (by norm_num), ?_⟩
  exact withdraw_window_half_open ⟨2, 2, 1, 4, 10⟩ (fun _ => []) 2 10 100
    [⟨3, 0, 1 / 2⟩] ⟨1, 0, 1 / 2⟩ (Or.inl (by norm_num))

/-- `struct BondsForRemovalRes` (lib.rs:2191): epochs fully unbonded, and
the optional partially unbonded epoch with its new (remaining) amount. -/
structure BondsForRemovalRes where
  epochs : List Nat
  new_entry : Option (Nat × Nat)
deriving DecidableEq, Repr

/-- The loop of `fn find_bonds_to_remove` (lib.rs:2203) over the reversed
(descending-epoch) bond list: `to_unbond = min(bond_amount, remaining)`; a
bond wholly consumed goes to `epochs`, otherwise it becomes the partial
`new_entry` (and then `remaining` necessarily reaches zero, breaking the
loop); the loop also breaks once `remaining` reaches zero. -/
def findBondsToRemoveGo : List (Nat × Nat) → Nat → BondsForRemovalRes
  | [], _ => ⟨[], none⟩
  | (bond_epoch, bond_amount) :: rest, remaining =>
    if min bond_amount remaining = bond_amount then
      if remaining - min bond_amount remaining = 0 then ⟨[bond_epoch], none⟩
      else
        let r := findBondsToRemoveGo rest
          (remaining - min bond_amount remaining)
        ⟨bond_epoch :: r.epochs, r.new_entry⟩
    else ⟨[], some (bond_epoch, bond_amount - min bond_amount remaining)⟩

/-- `fn find_bonds_to_remove` (lib.rs:2203): the bond map is iterated in
ascending epoch order (`BTreeMap`) and consumed in reverse. -/
def find_bonds_to_remove (bonds : List (Nat × Nat)) (amount : Nat) :
    BondsForRemovalRes :=
  findBondsToRemoveGo bonds.reverse amount

/-- Characterization of the consumption loop: exactly a prefix (of some
length `k`) of the descending list is fully consumed, and the next entry,
when partially consumed, carries the leftover. -/
theorem findBondsToRemoveGo_spec :
    ∀ (l : List (Nat × Nat)) (amount : Nat), 0 < amount →
      amount ≤ sumAmounts l →
      ∃ k, k ≤ l.length ∧
        (findBondsToRemoveGo l amount).epochs = (l.take k).map Prod.fst ∧
        sumAmounts (l.take k) ≤ amount ∧
        ((findBondsToRemoveGo l amount).new_entry = none ∧
            sumAmounts (l.take k) = amount ∨
         ∃ e b rest, l.drop k = (e, b) :: rest ∧
           (findBondsToRemoveGo l amount).new_entry =
             some (e, b - (amount - sumAmounts (l.take k))) ∧
           0 < amount - sumAmounts (l.take k) ∧
           amount - sumAmounts (l.take k) < b) := by
  intro l
  induction l with
  | nil =>
    intro amount h0 hle
    simp [sumAmounts] at hle
    omega
  | cons p rest ih =>
    obtain ⟨e, b⟩ := p
    intro amount h0 hle
    have hsum : sumAmounts ((e, b) :: rest) = b + sumAmounts rest := by
      simp [sumAmounts]
    by_cases hb : b ≤ amount
    · have hmin : min b amount = b := min_eq_left hb
      by_cases heq : amount - b = 0
      · refine ⟨1, by simp, ?_, ?_, Or.inl ⟨?_, ?_⟩⟩ <;>
          simp [findBondsToRemoveGo, hmin, heq, sumAmounts] <;> omega
      · obtain ⟨k, hk, heps, hsumk, hdisj⟩ := ih (amount - b) (by omega)
          (by omega)
        have hgo : findBondsToRemoveGo ((e, b) :: rest) amount =
            ⟨e :: (findBondsToRemoveGo rest (amount - b)).epochs,
             (findBondsToRemoveGo rest (amount - b)).new_entry⟩ := by
          simp [findBondsToRemoveGo, hmin, heq]
        have htk : sumAmounts (((e, b) :: rest).take (k + 1)) =
            b + sumAmounts (rest.take k) := by
          simp [sumAmounts]
        refine ⟨k + 1, by simpa using hk, ?_, ?_, ?_⟩
        · rw [hgo, heps]
          simp
        · rw [htk]
          omega
        · rcases hdisj with ⟨hnone, hexact⟩ | ⟨e1, b1, rest1, hdrop, hsome,
            hpos1, hlt1⟩
          · exact Or.inl ⟨by rw [hgo]; exact hnone, by rw [htk]; omega⟩
          · refine Or.inr ⟨e1, b1, rest1, by simpa using hdrop, ?_, ?_, ?_⟩
            · rw [hgo]
              have harith : amount - b - sumAmounts (rest.take k) =
                  amount - sumAmounts (((e, b) :: rest).take (k + 1)) := by
                rw [htk]
                omega
              rw [← harith]
              exact hsome
            · rw [htk]; omega
            · rw [htk]; omega
    · have hmin : min b amount = amount := min_eq_right (by omega)
      have hne : ¬min b amount = b := by omega
      have hne2 : ¬amount = b := by omega
      refine ⟨0, by simp, ?_, by simp [sumAmounts], Or.inr
        ⟨e, b, rest, by simp, ?_, by simp [sumAmounts]; omega,
         by simp [sumAmounts]; omega⟩⟩
      · simp [findBondsToRemoveGo, hne]
      · simp [findBondsToRemoveGo, hne, hne2, hmin, sumAmounts]

/-- The property C7 asserts of a `find_bonds_to_remove` result `r` on a
bond map presented as an ascending-epoch list: for some `k`, the removed
epochs are exactly the `k` greatest epochs (the reversed list's prefix),
their amounts are wholly consumed within `amount`, every untouched entry
has a strictly smaller epoch than every fully removed one, and `new_entry`
is the next-older entry carrying what remains of it after removal (absent
exactly when the `k` full removals consume `amount` exactly). -/
def BondsForRemovalSpec (bonds : List (Nat × Nat)) (amount : Nat)
    (r : BondsForRemovalRes) : Prop :=
  ∃ k, k ≤ bonds.reverse.length ∧
    r.epochs = (bonds.reverse.take k).map Prod.fst ∧
    sumAmounts (bonds.reverse.take k) ≤ amount ∧
    (∀ x ∈ bonds.reverse.take k, ∀ y ∈ bonds.reverse.drop k, y.1 < x.1) ∧
    (r.new_entry = none ∧ sumAmounts (bonds.reverse.take k) = amount ∨
     ∃ e b rest, bonds.reverse.drop k = (e, b) :: rest ∧
       r.new_entry = some (e, b - (amount - sumAmounts (bonds.reverse.take k))) ∧
       0 < amount - sumAmounts (bonds.reverse.take k) ∧
       amount - sumAmounts (bonds.reverse.take k) < b)

/-- C7. Descending-order bond consumption: on a bond map with ascending
epochs and positive amounts, `find_bonds_to_remove` consumes entries from
the greatest epoch downward and satisfies `BondsForRemovalSpec`. -/
theorem find_bonds_to_remove_descending (bonds : List (Nat × Nat))
    (amount : Nat) (hsorted : bonds.Pairwise (fun x y => x.1 < y.1))
    (hpos : ∀ p ∈ bonds, 0 < p.2) (h0 : 0 < amount)
    (hle : amount ≤ sumAmounts bonds) :
    BondsForRemovalSpec bonds amount (find_bonds_to_remove bonds amount) := by
  have hrevsum : sumAmounts bonds.reverse = sumAmounts bonds := by
    simp [sumAmounts, List.map_reverse, List.sum_reverse]
  obtain ⟨k, hk, heps, hsumk, hdisj⟩ := findBondsToRemoveGo_spec
    bonds.reverse amount h0 (by rw [hrevsum]; exact hle)
  have hrevsorted : bonds.reverse.Pairwise (fun x y => y.1 < x.1) := by
    rw [List.pairwise_reverse]
    exact hsorted
  refine ⟨k, hk, heps, hsumk, ?_, hdisj⟩
  intro x hx y hy
  have := List.pairwise_append.mp
    (by rw [List.take_append_drop k bonds.reverse]; exact hrevsorted)
  exact this.2.2 x hx y hy

/-- Witness for C7: bonds `{1 ↦ 5, 3 ↦ 10, 5 ↦ 7}` unbonding 9 fully
removes epoch 5 (amount 7) and leaves the partial entry `(3, 8)`. -/
theorem find_bonds_to_remove_descending_witness :
    ([(1, 5), (3, 10), (5, 7)] : List (Nat × Nat)).Pairwise
        (fun x y => x.1 < y.1) ∧
    (∀ p ∈ ([(1, 5), (3, 10), (5, 7)] : List (Nat × Nat)), 0 < p.2) ∧
    (0 : Nat) < 9 ∧ 9 ≤ sumAmounts [(1, 5), (3, 10), (5, 7)] ∧
    BondsForRemovalSpec [(1, 5), (3, 10), (5, 7)] 9
      (find_bonds_to_remove [(1, 5), (3, 10), (5, 7)] 9) := by
  refine ⟨?_, ?_, ?_, ?_, ?_⟩
  · decide
  · decide
  · decide
  · decide
  · exact find_bonds_to_remove_descending [(1, 5), (3, 10), (5, 7)] 9
      (by decide) (by decide) (by decide) (by decide)

/-- The variants of `RedelegationError` raised by `fn redelegate_tokens`. -/
inductive RedelegationError
  | redelegationSrcEqDest
  | delegatorIsValidator
  | notAValidator (addr : String)
  | isChainedRedelegation
deriving DecidableEq, Repr

/-- Outcome of the read-only validation prefix of `fn redelegate_tokens`
(lib.rs:5157-5216): `earlyReturn` is the immediate `Ok(())` taken for a
zero amount before any check and before any storage write; `proceed` means
every check passed and the function goes on to move the tokens; `err e` is
the error returned. -/
inductive RedelegateOutcome
  | earlyReturn
  | proceed
  | err (e : RedelegationError)
deriving DecidableEq, Repr

/-- The validation prefix of `fn redelegate_tokens` (lib.rs:5146), in
source order: zero-amount early return, `src == dest`, delegator must not
be a validator, `src` and `dest` must be validators, and the chained
redelegation check. `is_validator` stands for the `is_validator` storage
reads and `incoming_redelegation_to_src` for
`validator_incoming_redelegations_handle(src).get(delegator)`. The
`Epoch::prev` of the recorded end epoch is truncated subtraction. -/
def redelegate_tokens_validate (is_validator : String → Bool)
    (incoming_redelegation_to_src : Option Nat) (params : PosParams)
    (delegator src_validator dest_validator : String)
    (current_epoch amount : Nat) : RedelegateOutcome :=
  if amount = 0 then .earlyReturn
  else if src_validator = dest_validator then .err .redelegationSrcEqDest
  else if is_validator delegator then .err .delegatorIsValidator
  else if ¬is_validator src_validator then
    .err (.notAValidator src_validator)
  else if ¬is_validator dest_validator then
    .err (.notAValidator dest_validator)
  else
    let is_not_chained : Bool := match incoming_redelegation_to_src with
      | some end_epoch =>
        decide (end_epoch - 1 + params.slash_processing_epoch_offset ≤
          current_epoch)
      | none => true
    if is_not_chained then .proceed else .err .isChainedRedelegation

/-- C5. Chain prevention: with a positive amount and all earlier checks
passing, `redelegate_tokens` fails with `IsChainedRedelegation` exactly
when an incoming redelegation to the source is recorded with end epoch `E`
and `(E - 1) + slash_processing_offset > current`; otherwise it
proceeds. -/
theorem chained_redelegation_check (is_validator : String → Bool)
    (incoming : Option Nat) (params : PosParams)
    (delegator src dest : String) (current amount : Nat)
    (hamt : 0 < amount) (hneq : src ≠ dest)
    (hdel : is_validator delegator = false)
    (hsrc : is_validator src = true) (hdest : is_validator dest = true)
    (hE : ∀ E, incoming = some E → 1 ≤ E) :
    (redelegate_tokens_validate is_validator incoming params delegator src
        dest current amount = .err .isChainedRedelegation ↔
      ∃ E, incoming = some E ∧
        current < E - 1 + params.slash_processing_epoch_offset) ∧
    (redelegate_tokens_validate is_validator incoming params delegator src
        dest current amount = .err .isChainedRedelegation ∨
      redelegate_tokens_validate is_validator incoming params delegator src
        dest current amount = .proceed) := by
  have hamt0 : ¬amount = 0 := by omega
  cases incoming with
  | none =>
    simp [redelegate_tokens_validate, hamt0, hneq, hdel, hsrc, hdest]
  | some E =>
    by_cases hch : E - 1 + params.slash_processing_epoch_offset ≤ current
    · simp [redelegate_tokens_validate, hamt0, hneq, hdel, hsrc, hdest, hch]
    · simp [redelegate_tokens_validate, hamt0, hneq, hdel, hsrc, hdest, hch]
      omega

/-- Witness for C5: an incoming redelegation ending at epoch 5 with
`U = 3`, `W = 1` (offset 5) blocks a redelegation at epoch 7
(`4 + 5 = 9 > 7`). -/
theorem chained_redelegation_check_witness :
    (0 : Nat) < 10 ∧ "src" ≠ "dst" ∧
    (fun a => a ≠ "dlg") "dlg" = false ∧
    (fun a => a ≠ "dlg") "src" = true ∧ (fun a => a ≠ "dlg") "dst" = true ∧
    (∀ E, (some 5 : Option Nat) = some E → 1 ≤ E) ∧
    ((redelegate_tokens_validate (fun a => a ≠ "dlg") (some 5)
        ⟨2, 3, 1, 4, 10⟩ "dlg" "src" "dst" 7 10 =
          .err .isChainedRedelegation ↔
      ∃ E, (some 5 : Option Nat) = some E ∧
        7 < E - 1 + PosParams.slash_processing_epoch_offset ⟨2, 3, 1, 4, 10⟩) ∧
    (redelegate_tokens_validate (fun a => a ≠ "dlg") (some 5)
        ⟨2, 3, 1, 4, 10⟩ "dlg" "src" "dst" 7 10 =
          .err .isChainedRedelegation ∨
      redelegate_tokens_validate (fun a => a ≠ "dlg") (some 5)
        ⟨2, 3, 1, 4, 10⟩ "dlg" "src" "dst" 7 10 = .proceed)) := by
  refine ⟨by decide, by decide, by decide, by decide, by decide,
    fun E hEe => by cases hEe; omega, ?_⟩
  exact chained_redelegation_check (fun a => a ≠ "dlg") (some 5)
    ⟨2, 3, 1, 4, 10⟩ "dlg" "src" "dst" 7 10 (by decide) (by decide)
    (by decide) (by decide) (by decide) (fun E hEe => by cases hEe; omega)

/-- C10. A zero-amount redelegation returns `Ok(())` immediately: the early
return at lib.rs:5164 precedes every validation check and every storage
write, so no `RedelegationError` can be raised and nothing is mutated,
whatever the rest of the state looks like (even `src = dest`, a validator
delegator, or unregistered validators). -/
theorem redelegate_zero_amount_short_circuits (is_validator : String → Bool)
    (incoming : Option Nat) (params : PosParams)
    (delegator src_validator dest_validator : String) (current : Nat) :
    redelegate_tokens_validate is_validator incoming params delegator
      src_validator dest_validator current 0 = .earlyReturn := rfl

/-- `fn is_validator_frozen` (lib.rs:5086): frozen while within the slash
processing window of the validator's last recorded infraction. -/
def is_validator_frozen (last_slash_epoch : Option Nat)
    (current_epoch : Nat) (params : PosParams) : Bool :=
  match last_slash_epoch with
  | some last_epoch =>
    decide (current_epoch <
      last_epoch + params.slash_processing_epoch_offset)
  | none => false

/-- Modelled from the spec: `EpochedDelta::get_sum` (§4.1) — the sum of the
stored deltas at epochs `≤ e`; used for
`bonds_handle.get_sum(storage, pipeline_epoch, ..)` (lib.rs:1772). -/
def bondsSumAt (bonds : List (Nat × Nat)) (epoch : Nat) : Nat :=
  sumAmounts (bonds.filter (fun p => decide (p.1 ≤ epoch)))

/-- The source check shared by `fn bond_tokens` (lib.rs:836) and
`fn unbond_tokens` (lib.rs:1750): the source, when given, must not be a
validator other than the target. -/
def sourceIsOtherValidator (is_validator : String → Bool)
    (source : Option String) (validator : String) : Bool :=
  match source with
  | some s => decide (s ≠ validator) && is_validator s
  | none => false

/-- Outcome of the validation prefix of `fn unbond_tokens`
(lib.rs:1726-1781): `earlyReturn` is the immediate
`Ok(ResultSlashing::default())` for a zero amount; `proceed r` records the
`remaining_at_pipeline` the check read. -/
inductive UnbondOutcome
  | earlyReturn
  | proceed (remaining : Nat)
  | errSourceMustNotBeAValidator
  | errNotAValidator
  | errValidatorIsFrozen
  | errUnbondAmountGreaterThanBond (amount remaining : Nat)
deriving DecidableEq, Repr

/-- The validation prefix of `fn unbond_tokens` (lib.rs:1726), in source
order: zero-amount early return, source must not be another validator, the
target must be a validator, the validator must not be frozen, and the
requested amount must not exceed the bond sum readable at the pipeline
epoch. -/
def unbond_tokens_validate (is_validator : String → Bool)
    (last_slash_epoch : Option Nat) (bonds : List (Nat × Nat))
    (params : PosParams) (source : Option String) (validator : String)
    (amount current_epoch : Nat) : UnbondOutcome :=
  if amount = 0 then .earlyReturn
  else if sourceIsOtherValidator is_validator source validator then
    .errSourceMustNotBeAValidator
  else if ¬is_validator validator then .errNotAValidator
  else if is_validator_frozen last_slash_epoch current_epoch params then
    .errValidatorIsFrozen
  else
    let remaining_at_pipeline :=
      bondsSumAt bonds (current_epoch + params.pipeline_len)
    if remaining_at_pipeline < amount then
      .errUnbondAmountGreaterThanBond amount remaining_at_pipeline
    else .proceed remaining_at_pipeline

/-- C6. Unbond amount bound: for a positive amount on a registered,
non-frozen validator with a non-validator source, the
`remaining_at_pipeline` comparison is the exact boundary — the validation
passes iff `amount ≤ remaining_at_pipeline` (in particular at equality),
and fails with `UnbondError::UnbondAmountGreaterThanBond` iff the amount
exceeds it. -/
theorem unbond_amount_boundary (is_validator : String → Bool)
    (last_slash : Option Nat) (bonds : List (Nat × Nat))
    (params : PosParams) (source : Option String) (validator : String)
    (amount current : Nat) (hamt : 0 < amount)
    (hsource : sourceIsOtherValidator is_validator source validator = false)
    (hval : is_validator validator = true)
    (hfrozen : is_validator_frozen last_slash current params = false) :
    (unbond_tokens_validate is_validator last_slash bonds params source
        validator amount current =
      .proceed (bondsSumAt bonds (current + params.pipeline_len)) ↔
      amount ≤ bondsSumAt bonds (current + params.pipeline_len)) ∧
    (unbond_tokens_validate is_validator last_slash bonds params source
        validator amount current =
      .errUnbondAmountGreaterThanBond amount
        (bondsSumAt bonds (current + params.pipeline_len)) ↔
      bondsSumAt bonds (current + params.pipeline_len) < amount) := by
  have hamt0 : ¬amount = 0 := by omega
  by_cases hrem : bondsSumAt bonds (current + params.pipeline_len) < amount
  · simp [unbond_tokens_validate, hamt0, hsource, hval, hfrozen, hrem]
  · simp [unbond_tokens_validate, hamt0, hsource, hval, hfrozen, hrem]
    omega

/-- Witness for C6: bonds `{0 ↦ 60, 9 ↦ 40}` read at pipeline epoch
`7 + 2 = 9` give `remaining_at_pipeline = 100`; unbonding exactly 100
proceeds and the too-large branch does not fire. -/
theorem unbond_amount_boundary_witness :
    (0 : Nat) < 100 ∧
    sourceIsOtherValidator (fun _ => true) none "val" = false ∧
    (fun _ => true) "val" = true ∧
    is_validator_frozen none 7 ⟨2, 3, 1, 4, 10⟩ = false ∧
    ((unbond_tokens_validate (fun _ => true) none [(0, 60), (9, 40)]
        ⟨2, 3, 1, 4, 10⟩ none "val" 100 7 =
      .proceed (bondsSumAt [(0, 60), (9, 40)] (7 + 2)) ↔
      100 ≤ bondsSumAt [(0, 60), (9, 40)] (7 + 2)) ∧
    (unbond_tokens_validate (fun _ => true) none [(0, 60), (9, 40)]
        ⟨2, 3, 1, 4, 10⟩ none "val" 100 7 =
      .errUnbondAmountGreaterThanBond 100
        (bondsSumAt [(0, 60), (9, 40)] (7 + 2)) ↔
      bondsSumAt [(0, 60), (9, 40)] (7 + 2) < 100)) := by
  refine ⟨by decide, by decide, by decide, by decide, ?_⟩
  exact unbond_amount_boundary (fun _ => true) none [(0, 60), (9, 40)]
    ⟨2, 3, 1, 4, 10⟩ none "val" 100 7 (by decide) (by decide) (by decide)
    (by decide)

/-- `Epoch::iter_bounds_inclusive(start, end)`: the epochs from `start` to
`end_` inclusive, in order. -/
def epochsInclusive (start end_ : Nat) : List Nat :=
  (List.range (end_ + 1 - start)).map (start + ·)

/-- `fn compute_cubic_slash_rate` (lib.rs:4165): over the window
`[infraction - W, infraction + W]`, accumulate (infracting stake of the
validators with slashes enqueued for `epoch + slash_processing_offset`)
divided by (stored total consensus stake of the epoch), and return `9 *
sum^2` — with *no* cap applied in this function (its doc comment: "There is
no cap on the rate applied within this function"). `total_consensus_stake`,
`enqueued_slashes` and `validator_stake` stand for the storage reads. -/
def compute_cubic_slash_rate (total_consensus_stake : Nat → Nat)
    (enqueued_slashes : Nat → List (String × Slash))
    (validator_stake : String → Nat → Nat) (params : PosParams)
    (infraction_epoch : Nat) : ℚ :=
  let bounds := params.cubic_slash_epoch_window infraction_epoch
  let sum_vp_fraction : ℚ :=
    (epochsInclusive bounds.1 bounds.2).foldl
      (fun acc epoch =>
        let consensus_stake : ℚ := (total_consensus_stake epoch : ℚ)
        let processing_epoch := epoch + params.slash_processing_epoch_offset
        let infracting_stake : ℚ :=
          (enqueued_slashes processing_epoch).foldl
            (fun acc2 vs => acc2 + (validator_stake vs.1 epoch : ℚ)) 0
        acc + infracting_stake / consensus_stake)
      0
  9 * sum_vp_fraction * sum_vp_fraction

/-- The per-slash rate update of `fn process_slashes` (lib.rs:4429): the
stored rate is `min(1, max(kind's base rate from the parameters, cubic
rate))`. -/
def processSlashRate (base_rate cubic_rate : ℚ) : ℚ :=
  min 1 (max base_rate cubic_rate)

/-- Folding `+ f x` over a list is the initial value plus the mapped sum. -/
theorem foldl_add_eq_sum (f : Nat → ℚ) :
    ∀ (l : List Nat) (init : ℚ),
      l.foldl (fun acc x => acc + f x) init = init + (l.map f).sum := by
  intro l
  induction l with
  | nil => intro init; simp
  | cons x rest ih =>
    intro init
    simp only [List.foldl_cons, List.map_cons, List.sum_cons, ih]
    ring

/-- Folding `+ g x` over pairs, rationally. -/
theorem foldl_add_eq_sum_pairs (g : String × Slash → ℚ) :
    ∀ (l : List (String × Slash)) (init : ℚ),
      l.foldl (fun acc x => acc + g x) init = init + (l.map g).sum := by
  intro l
  induction l with
  | nil => intro init; simp
  | cons x rest ih =>
    intro init
    simp only [List.foldl_cons, List.map_cons, List.sum_cons, ih]
    ring

/-- Summing `f` over a shifted range list matches the `Finset.Ico` sum. -/
theorem rangeShift_map_sum (f : Nat → ℚ) :
    ∀ (n a : Nat), (((List.range n).map (a + ·)).map f).sum =
      ∑ e ∈ Finset.Ico a (a + n), f e := by
  intro n
  induction n with
  | zero => intro a; simp
  | succ m ih =>
    intro a
    rw [List.range_succ]
    simp only [List.map_append, List.sum_append, List.map_cons,
      List.map_nil, List.sum_cons, List.sum_nil]
    rw [ih, show a + (m + 1) = (a + m) + 1 from rfl,
      Finset.sum_Ico_succ_top (Nat.le_add_right a m)]
    ring

/-- The inclusive epoch list sums like the `Finset.Icc` interval. -/
theorem epochsInclusive_map_sum (f : Nat → ℚ) (a b : Nat) :
    ((epochsInclusive a b).map f).sum = ∑ e ∈ Finset.Icc a b, f e := by
  unfold epochsInclusive
  rw [rangeShift_map_sum]
  by_cases h : a ≤ b
  · rw [show a + (b + 1 - a) = b + 1 by omega, Nat.Ico_succ_right]
  · rw [show a + (b + 1 - a) = a by omega]
    rw [Finset.Ico_self, Finset.Icc_eq_empty (by omega)]

/-- C4, counterexample. `compute_cubic_slash_rate` is *not* capped at 1:
with `W = 0`, offset 1, a single enqueued slash at infraction epoch 5 whose
validator holds the entire consensus stake of 100, the fraction sum is 1
and the function returns `9 > 1`. -/
theorem cubic_slash_rate_uncapped_counterexample :
    1 < compute_cubic_slash_rate (fun _ => 100)
      (fun e => if e = 6 then [("v", ⟨5, 0, 0⟩)] else [])
      (fun _ _ => 100) ⟨0, 0, 0, 1, 1⟩ 5 := by
  norm_num [compute_cubic_slash_rate, epochsInclusive,
    PosParams.cubic_slash_epoch_window,
    PosParams.slash_processing_epoch_offset, List.range_succ]

/-- C4, amended. `compute_cubic_slash_rate` returns the *uncapped* value
`9 * (Σ_{e ∈ [infraction-W, infraction+W]} infracting_stake(e) /
total_consensus_stake(e))^2`; the `min(1, ·)` of the specification is
applied afterwards by `process_slashes`, which stores each slash's rate as
`min(1, max(base_rate, cubic_rate))` — and that stored rate never exceeds
1. -/
theorem cubic_slash_rate_formula (total_consensus_stake : Nat → Nat)
    (enqueued_slashes : Nat → List (String × Slash))
    (validator_stake : String → Nat → Nat) (params : PosParams)
    (infraction_epoch : Nat) :
    compute_cubic_slash_rate total_consensus_stake enqueued_slashes
        validator_stake params infraction_epoch =
      9 * (∑ e ∈ Finset.Icc
            (infraction_epoch - params.cubic_slashing_window_length)
            (infraction_epoch + params.cubic_slashing_window_length),
          ((enqueued_slashes (e + params.slash_processing_epoch_offset)).map
              (fun vs => (validator_stake vs.1 e : ℚ))).sum /
            (total_consensus_stake e : ℚ)) ^ 2 ∧
    ∀ base_rate cubic_rate : ℚ, processSlashRate base_rate cubic_rate ≤ 1 := by
  constructor
  · unfold compute_cubic_slash_rate
    simp only [foldl_add_eq_sum_pairs, zero_add, foldl_add_eq_sum,
      epochsInclusive_map_sum, PosParams.cubic_slash_epoch_window]
    ring
  · intro base_rate cubic_rate
    exact min_le_left 1 _

/-- Modelled from the spec: validator states (§3); `types.rs` is not part
of the provided sources. -/
inductive ValidatorState
  | consensus
  | belowCapacity
  | belowThreshold
  | inactive
  | jailed
deriving DecidableEq, Repr

/-- Every `ValidatorState` value that any operation of `lib.rs` passes to
`validator_state_handle(..).set(..)`, collected from all write sites:
`BelowThreshold` (lines 949, 1109, 1267, 2809), `Consensus` (962, 1008,
1146, 1181, 1299, 1399, 4320), `BelowCapacity` (994, 1022, 1195, 1255,
1340, 1385) and `Jailed` (4367); `Inactive` is matched (860, 4349) but
never written. -/
def writtenValidatorStates : List ValidatorState :=
  [.belowThreshold, .consensus, .belowCapacity, .jailed]

/-- The epoched validator-state table: validator address and epoch to the
stored state, `none` when nothing is recorded. -/
def StateTable : Type := String → Nat → Option ValidatorState

/-- One `validator_state_handle(v).set(state, ..)` write at an epoch. -/
def writeState (t : StateTable) (v : String) (e : Nat)
    (st : ValidatorState) : StateTable :=
  fun v1 e1 => if v1 = v ∧ e1 = e then some st else t v1 e1

/-- The state tables reachable from genesis (nothing recorded) by the
engine's operations: every operation only updates validator states through
writes of values from `writtenValidatorStates`. -/
inductive ReachableStates : StateTable → Prop
  | genesis : ReachableStates (fun _ _ => none)
  | step {t : StateTable} {v : String} {e : Nat} {st : ValidatorState} :
      ReachableStates t → st ∈ writtenValidatorStates →
      ReachableStates (writeState t v e st)

/-- The `Inactive` guard of `fn bond_tokens` (lib.rs:857-865): scan the
epochs `current, .., current + P - 1` (`current_epoch.iter_range(P)`) for
an `Inactive` state; a hit raises `BondError::InactiveValidator`. -/
def bondInactiveCheck (t : StateTable) (validator : String) (current : Nat)
    (params : PosParams) : Bool :=
  ((List.range params.pipeline_len).map (current + ·)).any
    (fun e => t validator e == some ValidatorState.inactive)

/-- C9. `Inactive` is never produced: in every state table reachable from
genesis no validator has state `Inactive` at any epoch, so the
`InactiveValidator` error branch of `bond_tokens` never fires. -/
theorem inactive_never_produced (t : StateTable) (h : ReachableStates t) :
    (∀ v e, t v e ≠ some ValidatorState.inactive) ∧
    ∀ v current params, bondInactiveCheck t v current params = false := by
  have hmain : ∀ v e, t v e ≠ some ValidatorState.inactive := by
    induction h with
    | genesis => intro v e; simp
    | step hr hmem ih =>
      intro v e
      unfold writeState
      rename_i t0 v0 e0 st0
      by_cases hc : v = v0 ∧ e = e0
      · simp only [hc, if_true]
        intro hcontra
        have hst : st0 = ValidatorState.inactive := by
          injection hcontra
        subst hst
        simp [writtenValidatorStates] at hmem
      · simp only [hc, if_false]
        exact ih v e
  refine ⟨hmain, ?_⟩
  intro v current params
  rw [Bool.eq_false_iff]
  intro hany
  rw [bondInactiveCheck, List.any_eq_true] at hany
  obtain ⟨e, _, hbeq⟩ := hany
  exact hmain v e (by simpa using hbeq)

/-- Witness for C9: the table after jailing validator `"v"` at epoch 3 is
reachable, holds no `Inactive` entry, and passes the `bond_tokens`
check. -/
theorem inactive_never_produced_witness :
    (writeState (fun _ _ => none) "v" 3 ValidatorState.jailed) "v" 3 ≠
      some ValidatorState.inactive ∧
    bondInactiveCheck (writeState (fun _ _ => none) "v" 3
      ValidatorState.jailed) "v" 2 ⟨2, 3, 1, 4, 10⟩ = false := by
  have h := inactive_never_produced
    (writeState (fun _ _ => none) "v" 3 ValidatorState.jailed)
    (ReachableStates.step ReachableStates.genesis
      (by simp [writtenValidatorStates]))
  exact ⟨h.1 "v" 3, h.2 "v" 2 ⟨2, 3, 1, 4, 10⟩⟩

/-! ## Validator sets (one epoch)

The consensus set is the nested map stake → position → address, iterated
in ascending (stake, position) order; the below-capacity set is keyed by
`Reverse(stake)` so its first key is the greatest stake. Both are modelled
as lists of entries: every query the code performs (count, least /
greatest key, first / last position of a bucket, point lookup, removal) is
a function of the entry multiset, so no sortedness needs to be carried. -/

/-- One entry of a validator-set map: a validator address stored in the
`amount` bucket at `position`. -/
structure SetEntry where
  amount : Nat
  position : Nat
  addr : String
deriving DecidableEq, Repr

/-- The validator-set storage touched by the set-updating operations at one
epoch: the consensus set, the below-capacity set, the address → position
sidecar (`validator_set_positions_handle`) and the validator states
(`validator_state_handle`) at that epoch. -/
structure VSState where
  consensus : List SetEntry
  belowCap : List SetEntry
  positions : List (String × Nat)
  states : List (String × ValidatorState)
deriving DecidableEq, Repr

/-- Least bucket key: `handle.iter().next()` on the consensus set. -/
def minKey : List SetEntry → Option Nat
  | [] => none
  | e :: es =>
    match minKey es with
    | none => some e.amount
    | some m => some (min e.amount m)

/-- Greatest bucket key: `handle.iter().next()` on the below-capacity set,
whose keys are reversed. -/
def maxKey : List SetEntry → Option Nat
  | [] => none
  | e :: es =>
    match maxKey es with
    | none => some e.amount
    | some m => some (max e.amount m)

/-- `fn find_last_position` (lib.rs:1605) on the bucket of `a`: the
greatest position, if the bucket is non-empty. -/
def maxPosInBucket : List SetEntry → Nat → Option Nat
  | [], _ => none
  | e :: es, a =>
    match maxPosInBucket es a with
    | none => if e.amount = a then some e.position else none
    | some p =>
      if e.amount = a then some (max e.position p) else some p

/-- `fn find_first_position` (lib.rs:1589) on the bucket of `a`. -/
def minPosInBucket : List SetEntry → Nat → Option Nat
  | [], _ => none
  | e :: es, a =>
    match minPosInBucket es a with
    | none => if e.amount = a then some e.position else none
    | some p =>
      if e.amount = a then some (min e.position p) else some p

/-- `fn find_next_position` (lib.rs:1621) on the bucket of `a`: one past
the last position, or 0 in an empty bucket. -/
def findNextPosition (l : List SetEntry) (a : Nat) : Nat :=
  match maxPosInBucket l a with
  | some p => p + 1
  | none => 0

/-- Bucket point lookup `handle.at(&a).get(&p)`. -/
def getEntryAddr : List SetEntry → Nat → Nat → Option String
  | [], _, _ => none
  | e :: es, a, p =>
    if e.amount = a ∧ e.position = p then some e.addr
    else getEntryAddr es a p

/-- Bucket removal `handle.at(&a).remove(&p)` discarding the returned
value (a missing entry is silently kept as `None` by the source). -/
def erasePair : List SetEntry → Nat → Nat → List SetEntry
  | [], _, _ => []
  | e :: es, a, p =>
    if e.amount = a ∧ e.position = p then es else e :: erasePair es a p

/-- Bucket removal returning the removed address, `none` when the entry is
absent (the source `expect`s on those paths). -/
def removeGet : List SetEntry → Nat → Nat → Option (String × List SetEntry)
  | [], _, _ => none
  | e :: es, a, p =>
    if e.amount = a ∧ e.position = p then some (e.addr, es)
    else
      match removeGet es a p with
      | none => none
      | some (addr, rest) => some (addr, e :: rest)

/-- Association-list insert with overwrite (`LazyMap::insert`). -/
def insertAssoc {α : Type} : List (String × α) → String → α →
    List (String × α)
  | [], k, v => [(k, v)]
  | (k0, v0) :: rest, k, v =>
    if k0 = k then (k, v) :: rest else (k0, v0) :: insertAssoc rest k v

/-- Association-list removal (`LazyMap::remove`). -/
def removeAssoc {α : Type} : List (String × α) → String → List (String × α)
  | [], _ => []
  | (k0, v0) :: rest, k =>
    if k0 = k then rest else (k0, v0) :: removeAssoc rest k

/-- Association-list lookup (`LazyMap::get`). -/
def lookupAssoc {α : Type} : List (String × α) → String → Option α
  | [], _ => none
  | (k0, v0) :: rest, k => if k0 = k then some v0 else lookupAssoc rest k

/-- `fn insert_validator_into_set` (lib.rs:1677) on the consensus set's
bucket of `a`: insert at the next free position and record the position in
the sidecar map. -/
def insertIntoConsensusSet (s : VSState) (a : Nat) (addr : String) :
    VSState :=
  let next_position := findNextPosition s.consensus a
  { s with
    consensus := ⟨a, next_position, addr⟩ :: s.consensus
    positions := insertAssoc s.positions addr next_position }

/-- `fn insert_validator_into_set` (lib.rs:1677) on the below-capacity
set's bucket of `a`. -/
def insertIntoBelowCapSet (s : VSState) (a : Nat) (addr : String) :
    VSState :=
  let next_position := findNextPosition s.belowCap a
  { s with
    belowCap := ⟨a, next_position, addr⟩ :: s.belowCap
    positions := insertAssoc s.positions addr next_position }

/-- `validator_state_handle(addr).set(st, ..)` at the affected epoch. -/
def setValidatorState (s : VSState) (addr : String) (st : ValidatorState) :
    VSState :=
  { s with states := insertAssoc s.states addr st }

/-- `fn insert_into_consensus_and_demote_to_below_cap` (lib.rs:1354):
remove the last-position validator of the minimal consensus bucket, demote
it to the below-capacity set at `min_consensus_amount`, and insert
`validator` into the consensus set at `tokens_post`. -/
def insert_into_consensus_and_demote_to_below_cap (s : VSState)
    (validator : String) (tokens_post min_consensus_amount : Nat) :
    Option VSState :=
  match maxPosInBucket s.consensus min_consensus_amount with
  | none => none
  | some last_position =>
    match removeGet s.consensus min_consensus_amount last_position with
    | none => none
    | some (removed_min_consensus, consensus1) =>
      let s1 := insertIntoBelowCapSet { s with consensus := consensus1 }
        min_consensus_amount removed_min_consensus
      let s2 := setValidatorState s1 removed_min_consensus .belowCapacity
      let s3 := insertIntoConsensusSet s2 tokens_post validator
      some (setValidatorState s3 validator .consensus)

/-- `fn insert_validator_into_validator_set` (lib.rs:930): place a (new)
validator with `stake` into below-threshold / consensus / below-capacity,
demoting the last minimal consensus validator when swapping in. -/
def insert_validator_into_validator_set (params : PosParams) (s : VSState)
    (address : String) (stake : Nat) : Option VSState :=
  let num_consensus_validators := s.consensus.length
  if stake < params.validator_stake_threshold then
    some (setValidatorState s address .belowThreshold)
  else if num_consensus_validators < params.max_validator_slots then
    some (setValidatorState (insertIntoConsensusSet s stake address)
      address .consensus)
  else
    let min_consensus_amount := (minKey s.consensus).getD 0
    if min_consensus_amount < stake then
      match maxPosInBucket s.consensus min_consensus_amount with
      | none => none
      | some last_min_consensus_position =>
        match removeGet s.consensus min_consensus_amount
            last_min_consensus_position with
        | none => none
        | some (removed, consensus1) =>
          let s1 := insertIntoBelowCapSet { s with consensus := consensus1 }
            min_consensus_amount removed
          let s2 := setValidatorState s1 removed .belowCapacity
          let s3 := insertIntoConsensusSet s2 stake address
          some (setValidatorState s3 address .consensus)
    else
      some (setValidatorState (insertIntoBelowCapSet s stake address)
        address .belowCapacity)

/-- `fn update_validator_set` (lib.rs:1035): move a validator whose stake
changes by `token_change` between the sets at the affected epoch.
`tokens_pre` stands for the `read_validator_stake` storage read; the
`Amount::from_change` of the non-negative post amount is `Int.toNat`. -/
def update_validator_set (params : PosParams) (s : VSState)
    (validator : String) (tokens_pre : Nat) (token_change : Int) :
    Option VSState :=
  if token_change = 0 then some s
  else
    let tokens_post := ((tokens_pre : Int) + token_change).toNat
    if tokens_pre < params.validator_stake_threshold ∧
        tokens_post < params.validator_stake_threshold then some s
    else
      match lookupAssoc s.positions validator with
      | some position =>
        let in_consensus :=
          getEntryAddr s.consensus tokens_pre position == some validator
        if in_consensus then
          let s0 := { s with
            consensus := erasePair s.consensus tokens_pre position }
          let max_below_capacity_validator_amount :=
            (maxKey s0.belowCap).getD 0
          if tokens_post < params.validator_stake_threshold then
            let s1 := setValidatorState s0 validator .belowThreshold
            let s2 := { s1 with
              positions := removeAssoc s1.positions validator }
            match maxKey s2.belowCap with
            | some max_bc_amount =>
              match minPosInBucket s2.belowCap max_bc_amount with
              | none => none
              | some lowest_position =>
                match removeGet s2.belowCap max_bc_amount
                    lowest_position with
                | none => none
                | some (removed_max_below_capacity, bc1) =>
                  let s3 := insertIntoConsensusSet
                    { s2 with belowCap := bc1 } max_bc_amount
                    removed_max_below_capacity
                  some (setValidatorState s3 removed_max_below_capacity
                    .consensus)
            | none => some s2
          else if tokens_post < max_below_capacity_validator_amount then
            match minPosInBucket s0.belowCap
                max_below_capacity_validator_amount with
            | none => none
            | some lowest_position =>
              match removeGet s0.belowCap
                  max_below_capacity_validator_amount lowest_position with
              | none => none
              | some (removed_max_below_capacity, bc1) =>
                let s1 := insertIntoConsensusSet { s0 with belowCap := bc1 }
                  max_below_capacity_validator_amount
                  removed_max_below_capacity
                let s2 := setValidatorState s1 removed_max_below_capacity
                  .consensus
                let s3 := insertIntoBelowCapSet s2 tokens_post validator
                some (setValidatorState s3 validator .belowCapacity)
          else
            some (insertIntoConsensusSet s0 tokens_post validator)
        else
          let s0 := { s with
            belowCap := erasePair s.belowCap tokens_pre position }
          let min_consensus_validator_amount :=
            (minKey s0.consensus).getD 0
          if min_consensus_validator_amount < tokens_post then
            insert_into_consensus_and_demote_to_below_cap s0 validator
              tokens_post min_consensus_validator_amount
          else if params.validator_stake_threshold ≤ tokens_post then
            some (setValidatorState
              (insertIntoBelowCapSet s0 tokens_post validator) validator
              .belowCapacity)
          else
            let s1 := setValidatorState s0 validator .belowThreshold
            some { s1 with
              positions := removeAssoc s1.positions validator }
      | none =>
        let num_consensus_validators := s.consensus.length
        if num_consensus_validators < params.max_validator_slots then
          some (setValidatorState
            (insertIntoConsensusSet s tokens_post validator) validator
            .consensus)
        else
          let min_consensus_validator_amount := (minKey s.consensus).getD 0
          if min_consensus_validator_amount < tokens_post then
            insert_into_consensus_and_demote_to_below_cap s validator
              tokens_post min_consensus_validator_amount
          else
            some (setValidatorState
              (insertIntoBelowCapSet s tokens_post validator) validator
              .belowCapacity)

/-- The capacity invariant of the claim: at most `max_validator_slots`
consensus validators, and no below-capacity stake above any consensus
stake (equivalently, above the minimum consensus stake). -/
def CapacityInv (params : PosParams) (s : VSState) : Prop :=
  s.consensus.length ≤ params.max_validator_slots ∧
  ∀ b ∈ s.belowCap, ∀ c ∈ s.consensus, b.amount ≤ c.amount

instance (params : PosParams) (s : VSState) :
    Decidable (CapacityInv params s) := by
  unfold CapacityInv
  exact instDecidableAnd

/-- The auxiliary invariant the capacity invariant needs to be inductive:
the below-capacity set is only populated while the consensus set is
full. -/
def ConsensusFullInv (params : PosParams) (s : VSState) : Prop :=
  s.belowCap ≠ [] → s.consensus.length = params.max_validator_slots

/-- C3, counterexample. The two stated conditions alone are not preserved:
with `max_validator_slots = 2`, a state where the consensus set holds only
`v1` (stake 100) while `v2` (stake 50) sits below capacity satisfies them,
yet `insert_validator_into_validator_set` of a new `v3` with stake 20 slips
`v3` into the non-full consensus set, leaving below-capacity stake 50 above
the minimum consensus stake 20. -/
theorem capacity_not_preserved_counterexample :
    CapacityInv ⟨0, 0, 0, 2, 10⟩
      ⟨[⟨100, 0, "v1"⟩], [⟨50, 0, "v2"⟩], [("v1", 0), ("v2", 0)],
        [("v1", .consensus), ("v2", .belowCapacity)]⟩ ∧
    insert_validator_into_validator_set ⟨0, 0, 0, 2, 10⟩
      ⟨[⟨100, 0, "v1"⟩], [⟨50, 0, "v2"⟩], [("v1", 0), ("v2", 0)],
        [("v1", .consensus), ("v2", .belowCapacity)]⟩ "v3" 20 =
      some ⟨[⟨20, 0, "v3"⟩, ⟨100, 0, "v1"⟩], [⟨50, 0, "v2"⟩],
        [("v1", 0), ("v2", 0), ("v3", 0)],
        [("v1", .consensus), ("v2", .belowCapacity), ("v3", .consensus)]⟩ ∧
    ¬CapacityInv ⟨0, 0, 0, 2, 10⟩
      ⟨[⟨20, 0, "v3"⟩, ⟨100, 0, "v1"⟩], [⟨50, 0, "v2"⟩],
        [("v1", 0), ("v2", 0), ("v3", 0)],
        [("v1", .consensus), ("v2", .belowCapacity), ("v3", .consensus)]⟩ := by
  refine ⟨by decide, by decide, by decide⟩

@[simp] theorem setValidatorState_consensus (s : VSState) (a : String)
    (st : ValidatorState) : (setValidatorState s a st).consensus =
      s.consensus := rfl

@[simp] theorem setValidatorState_belowCap (s : VSState) (a : String)
    (st : ValidatorState) : (setValidatorState s a st).belowCap =
      s.belowCap := rfl

@[simp] theorem insertIntoConsensusSet_consensus (s : VSState) (a : Nat)
    (addr : String) : (insertIntoConsensusSet s a addr).consensus =
      ⟨a, findNextPosition s.consensus a, addr⟩ :: s.consensus := rfl

@[simp] theorem insertIntoConsensusSet_belowCap (s : VSState) (a : Nat)
    (addr : String) : (insertIntoConsensusSet s a addr).belowCap =
      s.belowCap := rfl

@[simp] theorem insertIntoBelowCapSet_consensus (s : VSState) (a : Nat)
    (addr : String) : (insertIntoBelowCapSet s a addr).consensus =
      s.consensus := rfl

@[simp] theorem insertIntoBelowCapSet_belowCap (s : VSState) (a : Nat)
    (addr : String) : (insertIntoBelowCapSet s a addr).belowCap =
      ⟨a, findNextPosition s.belowCap a, addr⟩ :: s.belowCap := rfl

/-- A `minKey` result bounds every entry from below. -/
theorem minKey_le :
    ∀ {l : List SetEntry} {m : Nat}, minKey l = some m →
      ∀ x ∈ l, m ≤ x.amount := by
  intro l
  induction l with
  | nil => intro m h x hx; cases hx
  | cons e es ih =>
    intro m h x hx
    rw [minKey] at h
    cases hes : minKey es with
    | none =>
      rw [hes] at h
      injection h with h1
      rcases List.mem_cons.mp hx with hxe | hxes
      · subst hxe; omega
      · cases hes2 : es with
        | nil => subst hes2; cases hxes
        | cons f fs =>
          rw [hes2, minKey] at hes
          cases hmm : minKey fs <;> rw [hmm] at hes <;> cases hes
    | some m1 =>
      rw [hes] at h
      injection h with h1
      rcases List.mem_cons.mp hx with hxe | hxes
      · subst hxe; omega
      · have := ih hes x hxes; omega

/-- `(minKey l).getD 0` bounds every entry from below. -/
theorem minKey_getD_le (l : List SetEntry) :
    ∀ x ∈ l, (minKey l).getD 0 ≤ x.amount := by
  intro x hx
  cases h : minKey l with
  | none =>
    cases l with
    | nil => cases hx
    | cons e es => rw [minKey] at h; cases hm : minKey es <;>
        rw [hm] at h <;> cases h
  | some m => simpa using minKey_le h x hx

/-- A `maxKey` result bounds every entry from above. -/
theorem maxKey_ge :
    ∀ {l : List SetEntry} {m : Nat}, maxKey l = some m →
      ∀ x ∈ l, x.amount ≤ m := by
  intro l
  induction l with
  | nil => intro m h x hx; cases hx
  | cons e es ih =>
    intro m h x hx
    rw [maxKey] at h
    cases hes : maxKey es with
    | none =>
      rw [hes] at h
      injection h with h1
      rcases List.mem_cons.mp hx with hxe | hxes
      · subst hxe; omega
      · cases hes2 : es with
        | nil => subst hes2; cases hxes
        | cons f fs =>
          rw [hes2, maxKey] at hes
          cases hmm : maxKey fs <;> rw [hmm] at hes <;> cases hes
    | some m1 =>
      rw [hes] at h
      injection h with h1
      rcases List.mem_cons.mp hx with hxe | hxes
      · subst hxe; omega
      · have := ih hes x hxes; omega

/-- `(maxKey l).getD 0` bounds every entry from above. -/
theorem maxKey_getD_ge (l : List SetEntry) :
    ∀ x ∈ l, x.amount ≤ (maxKey l).getD 0 := by
  intro x hx
  cases h : maxKey l with
  | none =>
    cases l with
    | nil => cases hx
    | cons e es => rw [maxKey] at h; cases hm : maxKey es <;>
        rw [hm] at h <;> cases h
  | some m => simpa using maxKey_ge h x hx

/-- `minKey` is `none` exactly on the empty list. -/
theorem minKey_eq_none_iff (l : List SetEntry) :
    minKey l = none ↔ l = [] := by
  cases l with
  | nil => simp [minKey]
  | cons e es =>
    simp only [minKey]
    cases h : minKey es <;> simp

/-- A successful `removeGet` removes exactly one entry. -/
theorem removeGet_length :
    ∀ {l : List SetEntry} {a p : Nat} {addr : String}
      {rest : List SetEntry}, removeGet l a p = some (addr, rest) →
      rest.length + 1 = l.length := by
  intro l
  induction l with
  | nil => intro a p addr rest h; cases h
  | cons e es ih =>
    intro a p addr rest h
    rw [removeGet] at h
    by_cases hc : e.amount = a ∧ e.position = p
    · rw [if_pos hc] at h
      injection h with h1
      injection h1 with h2 h3
      subst h3
      simp
    · rw [if_neg hc] at h
      cases hrec : removeGet es a p with
      | none => rw [hrec] at h; cases h
      | some pr =>
        obtain ⟨addr1, rest1⟩ := pr
        rw [hrec] at h
        injection h with h1
        injection h1 with h2 h3
        subst h3
        have := ih hrec
        simp only [List.length_cons]
        omega

/-- A successful `removeGet` keeps only entries of the original list. -/
theorem removeGet_subset :
    ∀ {l : List SetEntry} {a p : Nat} {addr : String}
      {rest : List SetEntry}, removeGet l a p = some (addr, rest) →
      ∀ x ∈ rest, x ∈ l := by
  intro l
  induction l with
  | nil => intro a p addr rest h; cases h
  | cons e es ih =>
    intro a p addr rest h x hx
    rw [removeGet] at h
    by_cases hc : e.amount = a ∧ e.position = p
    · rw [if_pos hc] at h
      injection h with h1
      injection h1 with h2 h3
      subst h3
      exact List.mem_cons_of_mem e hx
    · rw [if_neg hc] at h
      cases hrec : removeGet es a p with
      | none => rw [hrec] at h; cases h
      | some pr =>
        obtain ⟨addr1, rest1⟩ := pr
        rw [hrec] at h
        injection h with h1
        injection h1 with h2 h3
        subst h3
        rcases List.mem_cons.mp hx with hxe | hxr
        · exact hxe ▸ List.mem_cons_self e es
        · exact List.mem_cons_of_mem e (ih hrec x hxr)

/-- A successful `removeGet` found an entry with the requested bucket
amount and position. -/
theorem removeGet_entry :
    ∀ {l : List SetEntry} {a p : Nat} {addr : String}
      {rest : List SetEntry}, removeGet l a p = some (addr, rest) →
      SetEntry.mk a p addr ∈ l := by
  intro l
  induction l with
  | nil => intro a p addr rest h; cases h
  | cons e es ih =>
    intro a p addr rest h
    rw [removeGet] at h
    by_cases hc : e.amount = a ∧ e.position = p
    · rw [if_pos hc] at h
      injection h with h1
      injection h1 with h2 h3
      subst h2
      obtain ⟨h4, h5⟩ := hc
      have : SetEntry.mk a p e.addr = e := by
        cases e; simp at h4 h5 ⊢; exact ⟨h4.symm, h5.symm⟩
      rw [this]
      exact List.mem_cons_self e es
    · rw [if_neg hc] at h
      cases hrec : removeGet es a p with
      | none => rw [hrec] at h; cases h
      | some pr =>
        obtain ⟨addr1, rest1⟩ := pr
        rw [hrec] at h
        injection h with h1
        injection h1 with h2 h3
        subst h2
        exact List.mem_cons_of_mem e (ih hrec)

/-- `erasePair` keeps only entries of the original list. -/
theorem erasePair_subset :
    ∀ {l : List SetEntry} {a p : Nat}, ∀ x ∈ erasePair l a p, x ∈ l := by
  intro l
  induction l with
  | nil => intro a p x hx; cases hx
  | cons e es ih =>
    intro a p x hx
    rw [erasePair] at hx
    by_cases hc : e.amount = a ∧ e.position = p
    · rw [if_pos hc] at hx
      exact List.mem_cons_of_mem e hx
    · rw [if_neg hc] at hx
      rcases List.mem_cons.mp hx with hxe | hxr
      · exact hxe ▸ List.mem_cons_self e es
      · exact List.mem_cons_of_mem e (ih x hxr)

/-- `erasePair` never lengthens the list. -/
theorem erasePair_length_le :
    ∀ (l : List SetEntry) (a p : Nat),
      (erasePair l a p).length ≤ l.length := by
  intro l
  induction l with
  | nil => intro a p; simp [erasePair]
  | cons e es ih =>
    intro a p
    rw [erasePair]
    by_cases hc : e.amount = a ∧ e.position = p
    · rw [if_pos hc]; simp
    · rw [if_neg hc]
      simp only [List.length_cons]
      exact Nat.succ_le_succ (ih a p)

/-- When the bucket point lookup succeeds, `erasePair` removes exactly one
entry. -/
theorem erasePair_length_of_get :
    ∀ {l : List SetEntry} {a p : Nat} {addr : String},
      getEntryAddr l a p = some addr →
      (erasePair l a p).length + 1 = l.length := by
  intro l
  induction l with
  | nil => intro a p addr h; cases h
  | cons e es ih =>
    intro a p addr h
    rw [getEntryAddr] at h
    rw [erasePair]
    by_cases hc : e.amount = a ∧ e.position = p
    · rw [if_pos hc]; simp
    · rw [if_neg hc] at h ⊢
      simp only [List.length_cons]
      rw [← ih h]

/-- Shape of a successful
`insert_into_consensus_and_demote_to_below_cap`: one consensus entry (at
`min_c`) is traded for a new one at `tokens_post`, and the demoted
validator joins the below-capacity set at `min_c`. -/
theorem demote_swap_spec (s : VSState) (validator : String)
    (tokens_post min_c : Nat) (s2 : VSState)
    (h : insert_into_consensus_and_demote_to_below_cap s validator
      tokens_post min_c = some s2) :
    ∃ (p1 p2 q : Nat) (removedAddr : String)
      (consensus1 : List SetEntry),
      s2.consensus = ⟨tokens_post, p1, validator⟩ :: consensus1 ∧
      s2.belowCap = ⟨min_c, p2, removedAddr⟩ :: s.belowCap ∧
      consensus1.length + 1 = s.consensus.length ∧
      (∀ x ∈ consensus1, x ∈ s.consensus) ∧
      SetEntry.mk min_c q removedAddr ∈ s.consensus := by
  unfold insert_into_consensus_and_demote_to_below_cap at h
  cases hmax : maxPosInBucket s.consensus min_c with
  | none => rw [hmax] at h; cases h
  | some lp =>
    simp only [hmax] at h
    cases hrem : removeGet s.consensus min_c lp with
    | none => simp only [hrem] at h; cases h
    | some pr =>
      obtain ⟨removedAddr, consensus1⟩ := pr
      simp only [hrem] at h
      injection h with h1
      subst h1
      exact ⟨_, _, lp, removedAddr, consensus1, rfl, rfl,
        removeGet_length hrem, removeGet_subset hrem,
        removeGet_entry hrem⟩

/-- A successful demote-swap preserves the consensus size, keeps every
below-capacity stake at or under every consensus stake, and leaves the
below-capacity set non-empty. -/
theorem demote_swap_preserves (s : VSState) (validator : String)
    (tokens_post min_c : Nat) (s2 : VSState)
    (h : insert_into_consensus_and_demote_to_below_cap s validator
      tokens_post min_c = some s2)
    (hstake : ∀ b ∈ s.belowCap, ∀ c ∈ s.consensus, b.amount ≤ c.amount)
    (hminle : ∀ c ∈ s.consensus, min_c ≤ c.amount)
    (hpost : min_c < tokens_post) :
    s2.consensus.length = s.consensus.length ∧
    (∀ b ∈ s2.belowCap, ∀ c ∈ s2.consensus, b.amount ≤ c.amount) ∧
    s2.belowCap ≠ [] := by
  obtain ⟨p1, p2, q, removedAddr, consensus1, hcons, hbc, hlen, hsub,
    hment⟩ := demote_swap_spec s validator tokens_post min_c s2 h
  refine ⟨by rw [hcons]; simpa using hlen, ?_, by rw [hbc]; simp⟩
  intro b hb c hc
  rw [hbc] at hb
  rw [hcons] at hc
  have hbmin : b.amount ≤ min_c := by
    rcases List.mem_cons.mp hb with hbe | hbold
    · subst hbe; exact Nat.le_refl _
    · simpa using hstake b hbold (SetEntry.mk min_c q removedAddr) hment
  rcases List.mem_cons.mp hc with hce | hcold
  · subst hce
    simp only []
    omega
  · exact Nat.le_trans hbmin (hminle c (hsub c hcold))

/-- Preservation for `insert_validator_into_validator_set`: given the
capacity invariant together with the fullness invariant, a successful
insert maintains both. -/
theorem insert_validator_preserves (params : PosParams) (s : VSState)
    (address : String) (stake : Nat) (s2 : VSState)
    (hcap : CapacityInv params s) (hfull : ConsensusFullInv params s)
    (h : insert_validator_into_validator_set params s address stake =
      some s2) :
    CapacityInv params s2 ∧ ConsensusFullInv params s2 := by
  obtain ⟨hlen, hstake⟩ := hcap
  unfold insert_validator_into_validator_set at h
  by_cases h1 : stake < params.validator_stake_threshold
  · rw [if_pos h1] at h
    injection h with h2
    subst h2
    exact ⟨⟨hlen, hstake⟩, hfull⟩
  · rw [if_neg h1] at h
    by_cases h2 : s.consensus.length < params.max_validator_slots
    · rw [if_pos h2] at h
      injection h with h3
      subst h3
      have hbc : s.belowCap = [] := by
        by_contra hne
        have := hfull hne
        omega
      refine ⟨⟨?_, ?_⟩, ?_⟩
      · simp only [setValidatorState_consensus,
          insertIntoConsensusSet_consensus, List.length_cons]
        omega
      · intro b hb c hc
        simp only [setValidatorState_belowCap,
          insertIntoConsensusSet_belowCap, hbc] at hb
        cases hb
      · intro hne
        simp only [setValidatorState_belowCap,
          insertIntoConsensusSet_belowCap, hbc] at hne
        exact absurd rfl hne
    · rw [if_neg h2] at h
      by_cases h3 : (minKey s.consensus).getD 0 < stake
      · rw [if_pos h3] at h
        cases hmax : maxPosInBucket s.consensus
            ((minKey s.consensus).getD 0) with
        | none => simp only [hmax] at h; cases h
        | some lp =>
          simp only [hmax] at h
          cases hrem : removeGet s.consensus ((minKey s.consensus).getD 0)
              lp with
          | none => simp only [hrem] at h; cases h
          | some pr =>
            obtain ⟨removedAddr, consensus1⟩ := pr
            simp only [hrem] at h
            have hcall : insert_into_consensus_and_demote_to_below_cap s
                address stake ((minKey s.consensus).getD 0) = some s2 := by
              unfold insert_into_consensus_and_demote_to_below_cap
              simp only [hmax, hrem]
              exact h
            obtain ⟨hlen2, hstake2, hne2⟩ := demote_swap_preserves s address
              stake ((minKey s.consensus).getD 0) s2 hcall hstake
              (minKey_getD_le s.consensus) h3
            exact ⟨⟨by omega, hstake2⟩, fun _ => by omega⟩
      · rw [if_neg h3] at h
        injection h with h4
        subst h4
        refine ⟨⟨by simpa using hlen, ?_⟩, ?_⟩
        · intro b hb c hc
          simp only [setValidatorState_belowCap,
            insertIntoBelowCapSet_belowCap] at hb
          simp only [setValidatorState_consensus,
            insertIntoBelowCapSet_consensus] at hc
          rcases List.mem_cons.mp hb with hbe | hbold
          · subst hbe
            exact Nat.le_trans
              (by omega : stake ≤ (minKey s.consensus).getD 0)
              (minKey_getD_le s.consensus c hc)
          · exact hstake b hbold c hc
        · intro _
          simpa using (by omega : s.consensus.length =
            params.max_validator_slots)

/-- `maxKey` is `none` exactly on the empty list. -/
theorem maxKey_eq_none_iff (l : List SetEntry) :
    maxKey l = none ↔ l = [] := by
  cases l with
  | nil => simp [maxKey]
  | cons e es =>
    simp only [maxKey]
    cases h : maxKey es <;> simp

/-- Preservation for `update_validator_set`: assuming the capacity and
fullness invariants and that the validator's recorded position is
consistent with the sets (its entry at its current stake actually sits in
the consensus or below-capacity set), a successful update maintains both
invariants. `0 < max_validator_slots` rules out the degenerate
parameterization with no consensus seats. -/
theorem update_validator_set_preserves (params : PosParams) (s : VSState)
    (validator : String) (tokens_pre : Nat) (token_change : Int)
    (s2 : VSState) (hslots : 0 < params.max_validator_slots)
    (hcap : CapacityInv params s) (hfull : ConsensusFullInv params s)
    (hposcons : ∀ p, lookupAssoc s.positions validator = some p →
      getEntryAddr s.consensus tokens_pre p = some validator ∨
      SetEntry.mk tokens_pre p validator ∈ s.belowCap)
    (h : update_validator_set params s validator tokens_pre token_change =
      some s2) :
    CapacityInv params s2 ∧ ConsensusFullInv params s2 := by
  obtain ⟨hlen, hstake⟩ := hcap
  unfold update_validator_set at h
  by_cases h0 : token_change = 0
  · rw [if_pos h0] at h
    injection h with h1
    subst h1
    exact ⟨⟨hlen, hstake⟩, hfull⟩
  · rw [if_neg h0] at h
    dsimp only at h
    set tp := ((tokens_pre : Int) + token_change).toNat with htp
    by_cases hthr : tokens_pre < params.validator_stake_threshold ∧
        tp < params.validator_stake_threshold
    · rw [if_pos hthr] at h
      injection h with h1
      subst h1
      exact ⟨⟨hlen, hstake⟩, hfull⟩
    · rw [if_neg hthr] at h
      cases hlook : lookupAssoc s.positions validator with
      | none =>
        simp only [hlook] at h
        by_cases hnum : s.consensus.length < params.max_validator_slots
        · rw [if_pos hnum] at h
          injection h with h1
          subst h1
          have hbc : s.belowCap = [] := by
            by_contra hne
            have := hfull hne
            omega
          refine ⟨⟨?_, ?_⟩, ?_⟩
          · simp only [setValidatorState_consensus,
              insertIntoConsensusSet_consensus, List.length_cons]
            omega
          · intro b hb c hc
            simp only [setValidatorState_belowCap,
              insertIntoConsensusSet_belowCap, hbc] at hb
            cases hb
          · intro hne
            simp only [setValidatorState_belowCap,
              insertIntoConsensusSet_belowCap, hbc] at hne
            exact absurd rfl hne
        · rw [if_neg hnum] at h
          by_cases hcmp : (minKey s.consensus).getD 0 < tp
          · rw [if_pos hcmp] at h
            obtain ⟨hlen2, hstake2, hne2⟩ := demote_swap_preserves s
              validator tp ((minKey s.consensus).getD 0) s2 h hstake
              (minKey_getD_le s.consensus) hcmp
            exact ⟨⟨by omega, hstake2⟩, fun _ => by omega⟩
          · rw [if_neg hcmp] at h
            injection h with h1
            subst h1
            refine ⟨⟨by simpa using hlen, ?_⟩, ?_⟩
            · intro b hb c hc
              simp only [setValidatorState_belowCap,
                insertIntoBelowCapSet_belowCap] at hb
              simp only [setValidatorState_consensus,
                insertIntoBelowCapSet_consensus] at hc
              rcases List.mem_cons.mp hb with hbe | hbold
              · subst hbe
                exact Nat.le_trans
                  (by omega : tp ≤ (minKey s.consensus).getD 0)
                  (minKey_getD_le s.consensus c hc)
              · exact hstake b hbold c hc
            · intro _
              simpa using (by omega : s.consensus.length =
                params.max_validator_slots)
      | some position =>
        simp only [hlook] at h
        simp only [beq_iff_eq] at h
        by_cases hin : getEntryAddr s.consensus tokens_pre position =
            some validator
        · rw [if_pos hin] at h
          have hlenc1 : (erasePair s.consensus tokens_pre position).length
              + 1 = s.consensus.length := erasePair_length_of_get hin
          by_cases hp1 : tp < params.validator_stake_threshold
          · rw [if_pos hp1] at h
            simp only [setValidatorState_belowCap,
              setValidatorState_consensus] at h
            cases hmaxk : maxKey s.belowCap with
            | none =>
              simp only [hmaxk] at h
              injection h with h1
              subst h1
              have hbc : s.belowCap = [] := (maxKey_eq_none_iff _).mp hmaxk
              refine ⟨⟨by simp only []; omega, ?_⟩, ?_⟩
              · intro b hb c hc
                simp only [hbc] at hb
                cases hb
              · intro hne
                simp only [hbc] at hne
                exact absurd rfl hne
            | some max_bc =>
              simp only [hmaxk] at h
              cases hlp : minPosInBucket s.belowCap max_bc with
              | none => simp only [hlp] at h; cases h
              | some lowest =>
                simp only [hlp] at h
                cases hrem : removeGet s.belowCap max_bc lowest with
                | none => simp only [hrem] at h; cases h
                | some pr =>
                  obtain ⟨promoted, bc1⟩ := pr
                  simp only [hrem] at h
                  injection h with h1
                  subst h1
                  have hbclen := removeGet_length hrem
                  have hbcsub := removeGet_subset hrem
                  refine ⟨⟨?_, ?_⟩, ?_⟩
                  · simp only [setValidatorState_consensus,
                      insertIntoConsensusSet_consensus, List.length_cons]
                    omega
                  · intro b hb c hc
                    simp only [setValidatorState_belowCap,
                      insertIntoConsensusSet_belowCap] at hb
                    simp only [setValidatorState_consensus,
                      insertIntoConsensusSet_consensus] at hc
                    rcases List.mem_cons.mp hc with hce | hcold
                    · subst hce
                      exact maxKey_ge hmaxk b (hbcsub b hb)
                    · exact hstake b (hbcsub b hb) c
                        (erasePair_subset c hcold)
                  · intro hne
                    simp only [setValidatorState_belowCap,
                      insertIntoConsensusSet_belowCap] at hne
                    obtain ⟨x, hx⟩ := List.exists_mem_of_ne_nil _ hne
                    have hbne : s.belowCap ≠ [] := by
                      intro hcontra
                      exact absurd (hcontra ▸ hbcsub x hx) (by simp)
                    have := hfull hbne
                    simp only [setValidatorState_consensus,
                      insertIntoConsensusSet_consensus, List.length_cons]
                    omega
          · rw [if_neg hp1] at h
            by_cases hp2 : tp < (maxKey s.belowCap).getD 0
            · rw [if_pos hp2] at h

              cases hlp : minPosInBucket s.belowCap
                  ((maxKey s.belowCap).getD 0) with
              | none => simp only [hlp] at h; cases h
              | some lowest =>
                simp only [hlp] at h
                cases hrem : removeGet s.belowCap
                    ((maxKey s.belowCap).getD 0) lowest with
                | none => simp only [hrem] at h; cases h
                | some pr =>
                  obtain ⟨promoted, bc1⟩ := pr
                  simp only [hrem] at h
                  injection h with h1
                  subst h1
                  have hbcsub := removeGet_subset hrem
                  have hbcent := removeGet_entry hrem
                  refine ⟨⟨?_, ?_⟩, ?_⟩
                  · simp only [setValidatorState_consensus,
                      insertIntoBelowCapSet_consensus,
                      insertIntoConsensusSet_consensus, List.length_cons]
                    omega
                  · intro b hb c hc
                    simp only [setValidatorState_belowCap,
                      insertIntoBelowCapSet_belowCap,
                      insertIntoConsensusSet_belowCap] at hb
                    simp only [setValidatorState_consensus,
                      insertIntoBelowCapSet_consensus,
                      insertIntoConsensusSet_consensus] at hc
                    rcases List.mem_cons.mp hb with hbe | hbold
                    · subst hbe
                      rcases List.mem_cons.mp hc with hce | hcold
                      · subst hce
                        exact (by omega : tp ≤ (maxKey s.belowCap).getD 0)
                      · exact Nat.le_trans
                          (by omega : tp ≤ (maxKey s.belowCap).getD 0)
                          (hstake _ hbcent c (erasePair_subset c hcold))
                    · rcases List.mem_cons.mp hc with hce | hcold
                      · subst hce
                        exact maxKey_getD_ge s.belowCap b (hbcsub b hbold)
                      · exact hstake b (hbcsub b hbold) c
                          (erasePair_subset c hcold)
                  · intro _
                    have hbne : s.belowCap ≠ [] := by
                      intro hcontra
                      rw [hcontra] at hbcent
                      cases hbcent
                    have := hfull hbne
                    simp only [setValidatorState_consensus,
                      insertIntoBelowCapSet_consensus,
                      insertIntoConsensusSet_consensus, List.length_cons]
                    omega
            · rw [if_neg hp2] at h
              injection h with h1
              subst h1
              refine ⟨⟨?_, ?_⟩, ?_⟩
              · simp only [insertIntoConsensusSet_consensus,
                  List.length_cons]
                omega
              · intro b hb c hc
                simp only [insertIntoConsensusSet_belowCap] at hb
                simp only [insertIntoConsensusSet_consensus] at hc
                rcases List.mem_cons.mp hc with hce | hcold
                · subst hce
                  exact Nat.le_trans (maxKey_getD_ge s.belowCap b hb)
                    (by omega : (maxKey s.belowCap).getD 0 ≤ tp)
                · exact hstake b hb c (erasePair_subset c hcold)
              · intro hne
                simp only [insertIntoConsensusSet_belowCap] at hne
                have := hfull hne
                simp only [insertIntoConsensusSet_consensus,
                  List.length_cons]
                omega
        · rw [if_neg hin] at h
          have hmem : SetEntry.mk tokens_pre position validator ∈
              s.belowCap := by
            rcases hposcons position hlook with hcon | hmem
            · exact absurd hcon hin
            · exact hmem
          have hbne : s.belowCap ≠ [] := by
            intro hcontra
            rw [hcontra] at hmem
            cases hmem
          have hclen : s.consensus.length = params.max_validator_slots :=
            hfull hbne

          by_cases hcmp : (minKey s.consensus).getD 0 < tp
          · rw [if_pos hcmp] at h
            have hstake0 : ∀ b ∈ erasePair s.belowCap tokens_pre position,
                ∀ c ∈ s.consensus, b.amount ≤ c.amount := by
              intro b hb c hc
              exact hstake b (erasePair_subset b hb) c hc
            obtain ⟨hlen2, hstake2, hne2⟩ := demote_swap_preserves
              ⟨s.consensus, erasePair s.belowCap tokens_pre position,
                s.positions, s.states⟩
              validator tp ((minKey s.consensus).getD 0) s2 h hstake0
              (minKey_getD_le s.consensus) hcmp
            exact ⟨⟨by simp only [] at hlen2; omega, hstake2⟩,
              fun _ => by simp only [] at hlen2; omega⟩
          · rw [if_neg hcmp] at h
            by_cases hthr2 : params.validator_stake_threshold ≤ tp
            · rw [if_pos hthr2] at h
              injection h with h1
              subst h1
              refine ⟨⟨?_, ?_⟩, ?_⟩
              · simp only [setValidatorState_consensus,
                  insertIntoBelowCapSet_consensus]
                omega
              · intro b hb c hc
                simp only [setValidatorState_belowCap,
                  insertIntoBelowCapSet_belowCap] at hb
                simp only [setValidatorState_consensus,
                  insertIntoBelowCapSet_consensus] at hc
                rcases List.mem_cons.mp hb with hbe | hbold
                · subst hbe
                  exact Nat.le_trans
                    (by omega : tp ≤ (minKey s.consensus).getD 0)
                    (minKey_getD_le s.consensus c hc)
                · exact hstake b (erasePair_subset b hbold) c hc
              · intro _
                simpa using hclen
            · rw [if_neg hthr2] at h
              injection h with h1
              subst h1
              refine ⟨⟨by simpa using hlen, ?_⟩, ?_⟩
              · intro b hb c hc
                simp only [setValidatorState_belowCap] at hb
                simp only [setValidatorState_consensus] at hc
                exact hstake b (erasePair_subset b hb) c hc
              · intro _
                simpa using hclen

/-- C3, amended. The validator-set operations preserve the capacity
invariant once it is strengthened with the auxiliary fullness invariant
(below-capacity only populated when consensus is full — without it the two
stated conditions are not inductive, see the counterexample), given
`0 < max_validator_slots` and, for `update_validator_set`, that the
updated validator's recorded position is consistent with the sets. -/
theorem validator_set_ops_preserve_capacity (params : PosParams)
    (s : VSState) (hslots : 0 < params.max_validator_slots)
    (hcap : CapacityInv params s) (hfull : ConsensusFullInv params s) :
    (∀ (address : String) (stake : Nat) (s2 : VSState),
      insert_validator_into_validator_set params s address stake =
        some s2 →
      CapacityInv params s2 ∧ ConsensusFullInv params s2) ∧
    (∀ (validator : String) (tokens_pre : Nat) (token_change : Int)
      (s2 : VSState),
      (∀ p, lookupAssoc s.positions validator = some p →
        getEntryAddr s.consensus tokens_pre p = some validator ∨
        SetEntry.mk tokens_pre p validator ∈ s.belowCap) →
      update_validator_set params s validator tokens_pre token_change =
        some s2 →
      CapacityInv params s2 ∧ ConsensusFullInv params s2) :=
  ⟨fun address stake s2 h =>
    insert_validator_preserves params s address stake s2 hcap hfull h,
   fun validator tokens_pre token_change s2 hposcons h =>
    update_validator_set_preserves params s validator tokens_pre
      token_change s2 hslots hcap hfull hposcons h⟩

/-- Witness for the amended C3, at a full 2-slot consensus set `{v1:100,
v2:50}` with `{v3:30}` below capacity. -/
theorem validator_set_ops_preserve_capacity_witness :
    0 < (⟨0, 0, 0, 2, 10⟩ : PosParams).max_validator_slots ∧
    CapacityInv ⟨0, 0, 0, 2, 10⟩
      ⟨[⟨100, 0, "v1"⟩, ⟨50, 0, "v2"⟩], [⟨30, 0, "v3"⟩],
        [("v1", 0), ("v2", 0), ("v3", 0)],
        [("v1", .consensus), ("v2", .consensus), ("v3", .belowCapacity)]⟩ ∧
    ConsensusFullInv ⟨0, 0, 0, 2, 10⟩
      ⟨[⟨100, 0, "v1"⟩, ⟨50, 0, "v2"⟩], [⟨30, 0, "v3"⟩],
        [("v1", 0), ("v2", 0), ("v3", 0)],
        [("v1", .consensus), ("v2", .consensus), ("v3", .belowCapacity)]⟩ ∧
    ((∀ (address : String) (stake : Nat) (s2 : VSState),
      insert_validator_into_validator_set ⟨0, 0, 0, 2, 10⟩
        ⟨[⟨100, 0, "v1"⟩, ⟨50, 0, "v2"⟩], [⟨30, 0, "v3"⟩],
          [("v1", 0), ("v2", 0), ("v3", 0)],
          [("v1", .consensus), ("v2", .consensus), ("v3", .belowCapacity)]⟩
        address stake = some s2 →
      CapacityInv ⟨0, 0, 0, 2, 10⟩ s2 ∧
        ConsensusFullInv ⟨0, 0, 0, 2, 10⟩ s2) ∧
    (∀ (validator : String) (tokens_pre : Nat) (token_change : Int)
      (s2 : VSState),
      (∀ p, lookupAssoc [("v1", 0), ("v2", 0), ("v3", 0)] validator =
          some p →
        getEntryAddr [⟨100, 0, "v1"⟩, ⟨50, 0, "v2"⟩] tokens_pre p =
          some validator ∨
        SetEntry.mk tokens_pre p validator ∈ [⟨30, 0, "v3"⟩]) →
      update_validator_set ⟨0, 0, 0, 2, 10⟩
        ⟨[⟨100, 0, "v1"⟩, ⟨50, 0, "v2"⟩], [⟨30, 0, "v3"⟩],
          [("v1", 0), ("v2", 0), ("v3", 0)],
          [("v1", .consensus), ("v2", .consensus), ("v3", .belowCapacity)]⟩
        validator tokens_pre token_change = some s2 →
      CapacityInv ⟨0, 0, 0, 2, 10⟩ s2 ∧
        ConsensusFullInv ⟨0, 0, 0, 2, 10⟩ s2)) := by
  refine ⟨by decide, by decide, fun _ => rfl, ?_⟩
  exact validator_set_ops_preserve_capacity ⟨0, 0, 0, 2, 10⟩
    ⟨[⟨100, 0, "v1"⟩, ⟨50, 0, "v2"⟩], [⟨30, 0, "v3"⟩],
      [("v1", 0), ("v2", 0), ("v3", 0)],
      [("v1", .consensus), ("v2", .consensus), ("v3", .belowCapacity)]⟩
    (by decide) (by decide) (fun _ => rfl)

end NamadaPoS
